import Mathlib

/-!
Shallow embedding of the crossword generator in
`mobile/src/utils/crosswordGenerator.ts`, together with proofs of the
specification's claims about it.  Grids are lists of rows of cells, mutable
updates become functional updates, JS `null` returns become `Option.none`,
and the one statement that can throw (`Array(n)` with negative `n` inside
`compactGrid`) is modelled as an `Option` failure.
-/

namespace Crossword

/-- A grid cell: `none` is a black/unfilled cell, `some ch` holds a letter. -/
abbrev Cell := Option Char

/-- The working grid, the source's `(string | null)[][]`. -/
abbrev Grid := List (List Cell)

/-- Raw input entry (source interface `WordInput`). -/
structure WordInput where
  word : List Char
  clue : List Char
deriving DecidableEq, Repr

/-- Placement direction (source union type `across | down`). -/
inductive Direction where
  | across
  | down
deriving DecidableEq, Repr

/-- Working placement record (source interface `WordPlacement`). -/
structure WordPlacement where
  word : List Char
  clue : List Char
  row : Int
  col : Int
  direction : Direction
  score : Int
deriving DecidableEq, Repr

/-- Final numbered word (source interface `PlacedWord`). -/
structure PlacedWord where
  number : Nat
  word : List Char
  clue : List Char
  answer : List Char
  startRow : Int
  startCol : Int
  direction : Direction
deriving DecidableEq, Repr

/-- Final output (source interface `PuzzleGrid`). -/
structure PuzzleGrid where
  size : Nat
  words : List PlacedWord
  grid : Grid
deriving DecidableEq, Repr

/-- Generation options; the source defaults are 50 / 1 / 2. -/
structure GenOptions where
  maxAttempts : Nat
  minIntersections : Int
  gridPadding : Int
deriving DecidableEq, Repr

/-- The source's default option values. -/
def defaultOptions : GenOptions := ⟨50, 1, 2⟩

/-- Read grid cell `grid[r][c]`; the algorithm only reads cells in bounds,
out-of-range reads are modelled as `none`. -/
def getCell (g : Grid) (r c : Int) : Cell :=
  if 0 ≤ r ∧ 0 ≤ c then (g.getD r.toNat []).getD c.toNat none
  else none

/-- Write grid cell `grid[r][c] = v`; the algorithm only writes in bounds,
out-of-range writes are modelled as no-ops. -/
def setCell (g : Grid) (r c : Int) (v : Cell) : Grid :=
  if 0 ≤ r ∧ 0 ≤ c then g.set r.toNat ((g.getD r.toNat []).set c.toNat v)
  else g

/-- The grid cell holding letter `i` of a word starting at `(row, col)` with
direction `dir`. -/
def spanCell (row col : Int) (dir : Direction) (i : Nat) : Int × Int :=
  match dir with
  | .across => (row, col + i)
  | .down => (row + i, col)

/-- Letter `i` of a word, the source's `word[i]` (always used in bounds). -/
def charAt (w : List Char) (i : Nat) : Char := w.getD i ' '

/-- Source `placeWord`: write each letter of the word along `dir` starting at
`(row, col)`. -/
def placeWord : Grid → List Char → Int → Int → Direction → Grid
  | g, [], _, _, _ => g
  | g, ch :: rest, row, col, dir =>
    match dir with
    | .across => placeWord (setCell g row col (some ch)) rest row (col + 1) dir
    | .down => placeWord (setCell g row col (some ch)) rest (row + 1) col dir

/-- Source `canPlaceWord`: bounds check, letter consistency, perpendicular
adjacency check on fresh cells, and end caps before and after the word. -/
def canPlaceWord (g : Grid) (w : List Char) (row col : Int) (dir : Direction) : Bool :=
  let gridSize : Int := g.length
  let boundsOk : Bool :=
    match dir with
    | .across => decide (0 ≤ row) && decide (row < gridSize) && decide (0 ≤ col)
        && decide (col + w.length ≤ gridSize)
    | .down => decide (0 ≤ col) && decide (col < gridSize) && decide (0 ≤ row)
        && decide (row + w.length ≤ gridSize)
  let cellOk : Bool := (List.range w.length).all fun i =>
    let p := spanCell row col dir i
    let here := getCell g p.1 p.2
    (decide (here = none) || decide (here = some (charAt w i))) &&
    (match dir with
     | .across =>
       if here = none then
         !(decide (0 < p.1) && decide (getCell g (p.1 - 1) p.2 ≠ none)) &&
         !(decide (p.1 < gridSize - 1) && decide (getCell g (p.1 + 1) p.2 ≠ none))
       else true
     | .down =>
       if here = none then
         !(decide (0 < p.2) && decide (getCell g p.1 (p.2 - 1) ≠ none)) &&
         !(decide (p.2 < gridSize - 1) && decide (getCell g p.1 (p.2 + 1) ≠ none))
       else true)
  let capOk : Bool :=
    match dir with
    | .across =>
      !(decide (0 < col) && decide (getCell g row (col - 1) ≠ none)) &&
      !(decide (col + w.length < gridSize) && decide (getCell g row (col + w.length) ≠ none))
    | .down =>
      !(decide (0 < row) && decide (getCell g (row - 1) col ≠ none)) &&
      !(decide (row + w.length < gridSize) && decide (getCell g (row + w.length) col ≠ none))
  boundsOk && cellOk && capOk

/-- Source `findIntersections`: all index pairs with equal letters; the outer
index runs over the current word, the inner over the placed word. -/
def findIntersections (cur placed : List Char) : List (Nat × Nat) :=
  (List.range cur.length).flatMap fun i =>
    (List.range placed.length).filterMap fun j =>
      if charAt cur i = charAt placed j then some (i, j) else none

/-- Source `calculateAverageDistance`: mean Manhattan distance from
`(row, col)` to the start cells of the placed words, `0` when none are
placed.  The JS number division is modelled as the exact rational
`totalDistance / length`. -/
def calculateAverageDistance (row col : Int) (pws : List WordPlacement) : ℚ :=
  if pws.length = 0 then 0
  else
    let totalDistance : Int := pws.foldl
      (fun t w => t + ((row - w.row).natAbs + (col - w.col).natAbs : Int)) 0
    mkRat totalDistance pws.length

/-- Source `scorePlacement`: +10 per cell already holding the word's letter,
proximity bonuses below average distance 5 and 3, and a -5 penalty for words
longer than 6 letters whose score is still below 10. -/
def scorePlacement (g : Grid) (w : List Char) (row col : Int) (dir : Direction)
    (pws : List WordPlacement) : Int :=
  let base : Int := (List.range w.length).foldl
    (fun s i =>
      let p := spanCell row col dir i
      if getCell g p.1 p.2 = some (charAt w i) then s + 10 else s) 0
  let avgDistance := calculateAverageDistance row col pws
  let s1 := if avgDistance < 5 then base + 5 else base
  let s2 := if avgDistance < 3 then s1 + 5 else s1
  if 6 < w.length ∧ s2 < 10 then s2 - 5 else s2

/-- One pass of the candidate search inside `generateCrossword`: every
placement of `cur` derived from a matching-letter pair with a placed word,
perpendicular to it, that passes `canPlaceWord`, scored by
`scorePlacement`. -/
def collectCandidates (g : Grid) (pws : List WordPlacement) (cur : WordInput) :
    List WordPlacement :=
  pws.flatMap fun pw =>
    (findIntersections cur.word pw.word).filterMap fun ij =>
      let dir : Direction := match pw.direction with
        | .across => .down
        | .down => .across
      let pos : Int × Int := match dir with
        | .across => (pw.row + (ij.2 : Int), pw.col - (ij.1 : Int))
        | .down => (pw.row - (ij.1 : Int), pw.col + (ij.2 : Int))
      if canPlaceWord g cur.word pos.1 pos.2 dir then
        some ⟨cur.word, cur.clue, pos.1, pos.2, dir,
          scorePlacement g cur.word pos.1 pos.2 dir pws⟩
      else none

/-- The descending-score comparator of the candidate sort. -/
def scoreGe (a b : WordPlacement) : Prop := b.score ≤ a.score

instance : DecidableRel scoreGe := fun _ _ => Int.decLe _ _

/-- Pick the best candidate: stable sort by descending score, take the head
(the earliest candidate among the top scores; JS `sort` is stable, and a
stable sort of a total preorder comparator is unique, so `insertionSort`
models it exactly). -/
def selectBest (cands : List WordPlacement) : Option WordPlacement :=
  (cands.insertionSort scoreGe).head?

/-- The bounded retry loop of `generateCrossword` for one word: every
iteration recomputes the candidate pool and accepts the best candidate
exactly when its score reaches `minIntersections`. -/
def placementLoop (g : Grid) (pws : List WordPlacement) (cur : WordInput)
    (minIntersections : Int) : Nat → Option WordPlacement
  | 0 => none
  | n + 1 =>
    match selectBest (collectCandidates g pws cur) with
    | some best =>
      if minIntersections ≤ best.score then some best
      else placementLoop g pws cur minIntersections n
    | none => placementLoop g pws cur minIntersections n

/-- The main loop of `generateCrossword` over the remaining sorted words:
place each word at its accepted best placement, or drop it silently. -/
def placeAll (maxAttempts : Nat) (minIntersections : Int) :
    List WordInput → Grid → List WordPlacement → Grid × List WordPlacement
  | [], g, pws => (g, pws)
  | cur :: rest, g, pws =>
    match placementLoop g pws cur minIntersections maxAttempts with
    | some best =>
      placeAll maxAttempts minIntersections rest
        (placeWord g cur.word best.row best.col best.direction) (pws ++ [best])
    | none => placeAll maxAttempts minIntersections rest g pws

/-- The four content bounds tracked by the scan in `compactGrid`. -/
structure Bounds where
  minRow : Int
  maxRow : Int
  minCol : Int
  maxCol : Int
deriving DecidableEq, Repr

/-- One update of the bounds scan in `compactGrid`. -/
def boundsStep (g : Grid) (b : Bounds) (p : Nat × Nat) : Bounds :=
  if getCell g p.1 p.2 ≠ none then
    ⟨min b.minRow (p.1 : Int), max b.maxRow (p.1 : Int),
     min b.minCol (p.2 : Int), max b.maxCol (p.2 : Int)⟩
  else b

/-- The cell visiting order of the double loop in `compactGrid`. -/
def scanPositions (n : Nat) : List (Nat × Nat) :=
  (List.range n).flatMap fun r => (List.range n).map fun c => (r, c)

/-- The bounds scan of `compactGrid`: min/max row/column over non-null cells,
started from `gridSize` and `-1`. -/
def scanBounds (g : Grid) : Bounds :=
  (scanPositions g.length).foldl (boundsStep g)
    ⟨(g.length : Int), -1, (g.length : Int), -1⟩

/-- Result record of `compactGrid`. -/
structure CompactResult where
  size : Nat
  grid : Grid
  words : List WordPlacement
deriving DecidableEq, Repr

/-- Source `compactGrid`: crop to the bounding box of the non-null content,
pad to a square with the larger side, and shift the placement records by the
same offset.  The source would throw on `Array(n)` with negative `n` (grid
with size > 0 and no content); that is modelled as `none`. -/
def compactGrid (g : Grid) (ws : List WordPlacement) : Option CompactResult :=
  let gridSize : Int := g.length
  let b := scanBounds g
  let padding : Int := 0
  let minRow := max 0 (b.minRow - padding)
  let maxRow := min (gridSize - 1) (b.maxRow + padding)
  let minCol := max 0 (b.minCol - padding)
  let maxCol := min (gridSize - 1) (b.maxCol + padding)
  let newSizeI := max (maxRow - minRow + 1) (maxCol - minCol + 1)
  if 0 ≤ newSizeI then
    some ⟨newSizeI.toNat,
      (List.range newSizeI.toNat).map fun (r : Nat) =>
        (List.range newSizeI.toNat).map fun (c : Nat) =>
          if (r : Int) ≤ maxRow - minRow ∧ (c : Int) ≤ maxCol - minCol then
            getCell g (minRow + (r : Int)) (minCol + (c : Int))
          else none,
      ws.map fun w => ⟨w.word, w.clue, w.row - minRow, w.col - minCol,
        w.direction, w.score⟩⟩
  else none

/-- Start-cell key of a placement, the source's map key string `row,col`. -/
def posKey (w : WordPlacement) : Int × Int := (w.row, w.col)

/-- The reading-order comparator of `assignClueNumbers`: row ascending, then
column ascending. -/
def keyLe (a b : Int × Int) : Prop :=
  if a.1 = b.1 then a.2 ≤ b.2 else a.1 ≤ b.1

instance : DecidableRel keyLe := fun a b => by
  unfold keyLe
  infer_instance

/-- Numbering loop of `assignClueNumbers`: one clue number per distinct start
cell, in the given key order; all placements sharing the start cell receive
that number. -/
def numberKeys (ws : List WordPlacement) : Nat → List (Int × Int) → List PlacedWord
  | _, [] => []
  | n, k :: ks =>
    ((ws.filter fun w => posKey w == k).map fun w =>
      ⟨n, w.word, w.clue, w.word, w.row, w.col, w.direction⟩) ++ numberKeys ws (n + 1) ks

/-- Source `assignClueNumbers`: group placements by start cell, sort the
distinct start cells in reading order, assign 1, 2, ... in that order. -/
def assignClueNumbers (ws : List WordPlacement) : List PlacedWord :=
  numberKeys ws 1 (((ws.map posKey).dedup).insertionSort keyLe)

/-- Leading and trailing whitespace removal (JS `trim`). -/
def trimChars (s : List Char) : List Char :=
  ((s.dropWhile Char.isWhitespace).reverse.dropWhile Char.isWhitespace).reverse

/-- Is the character in `A`..`Z`?  On a word of length ≥ 2 the source regex
test is exactly this test on every character. -/
def isAZ (c : Char) : Bool := decide ('A' ≤ c) && decide (c ≤ 'Z')

/-- The normalization step of `generateCrossword`: uppercase then trim each
word, trim each clue, keep entries whose word has length ≥ 2 and only
`A`..`Z` characters. -/
def normalizeWords (ws : List WordInput) : List WordInput :=
  (ws.map fun w => ⟨trimChars (w.word.map Char.toUpper), trimChars w.clue⟩).filter
    fun w => decide (2 ≤ w.word.length) && w.word.all isAZ

/-- The length-descending comparator of the word sort (ties keep the original
relative order: JS `sort` is stable, and so is `insertionSort`). -/
def lenGe (a b : WordInput) : Prop := b.word.length ≤ a.word.length

instance : DecidableRel lenGe := fun _ _ => Nat.decLe _ _

/-- Source `generateCrossword`; returns `none` where the source returns
`null`. -/
def generateCrossword (wordInputs : List WordInput) (opts : GenOptions) :
    Option PuzzleGrid :=
  if wordInputs.isEmpty then none
  else
    let normalizedWords := normalizeWords wordInputs
    if normalizedWords.isEmpty then none
    else
      let sortedWords := normalizedWords.insertionSort lenGe
      match sortedWords with
      | [] => none
      | firstWord :: restWords =>
        let maxWordLength := firstWord.word.length
        let initialGridSize := max 30 (maxWordLength * 3)
        let grid0 : Grid :=
          List.replicate initialGridSize (List.replicate initialGridSize none)
        let centerRow : Int := (initialGridSize / 2 : Nat)
        let centerCol : Int := ((initialGridSize - maxWordLength) / 2 : Nat)
        let grid1 := placeWord grid0 firstWord.word centerRow centerCol .across
        let anchor : WordPlacement :=
          ⟨firstWord.word, firstWord.clue, centerRow, centerCol, .across, 0⟩
        let result := placeAll opts.maxAttempts opts.minIntersections restWords grid1 [anchor]
        if result.2.length < min 3 sortedWords.length then none
        else
          match compactGrid result.1 result.2 with
          | none => none
          | some c => some ⟨c.size, assignClueNumbers c.words, c.grid⟩

/-!  Specification predicates used by the claims. -/

/-- The grid is an `n × n` square of cells. -/
def SquareOfSize (g : Grid) (n : Nat) : Prop :=
  g.length = n ∧ ∀ row ∈ g, row.length = n

instance (g : Grid) (n : Nat) : Decidable (SquareOfSize g n) := by
  unfold SquareOfSize
  infer_instance

/-- Every letter of the placement is on the grid: cell `i` of its span holds
letter `i` of its word. -/
def spanMatches (g : Grid) (w : WordPlacement) : Prop :=
  ∀ i, i < w.word.length →
    getCell g (spanCell w.row w.col w.direction i).1 (spanCell w.row w.col w.direction i).2
      = some (charAt w.word i)

/-- The cell `(r, c)` lies in the span of one of the placements. -/
def coveredBy (pws : List WordPlacement) (r c : Int) : Prop :=
  ∃ w ∈ pws, ∃ i, i < w.word.length ∧ spanCell w.row w.col w.direction i = (r, c)

/-!  Basic grid lemmas. -/

theorem length_setCell (g : Grid) (r c : Int) (v : Cell) :
    (setCell g r c v).length = g.length := by
  unfold setCell
  split <;> simp

theorem getD_mem_of_lt {g : Grid} {i : Nat} (h : i < g.length) :
    g.getD i [] ∈ g := by
  rw [List.getD_eq_getElem?_getD, List.getElem?_eq_getElem h]
  exact List.getElem_mem h

theorem squareOfSize_setCell {g : Grid} {n : Nat} (h : SquareOfSize g n)
    (r c : Int) (v : Cell) : SquareOfSize (setCell g r c v) n := by
  obtain ⟨h1, h2⟩ := h
  refine ⟨by rw [length_setCell, h1], ?_⟩
  intro row hrow
  unfold setCell at hrow
  split at hrow
  · by_cases hb : r.toNat < g.length
    · rcases List.mem_or_eq_of_mem_set hrow with h' | h'
      · exact h2 row h'
      · subst h'
        rw [List.length_set]
        exact h2 _ (getD_mem_of_lt hb)
    · rw [List.set_eq_of_length_le (Nat.le_of_not_lt hb)] at hrow
      exact h2 row hrow
  · exact h2 row hrow

theorem getCell_setCell_ne (g : Grid) (r c r' c' : Int) (v : Cell)
    (h : ¬(r' = r ∧ c' = c)) :
    getCell (setCell g r c v) r' c' = getCell g r' c' := by
  unfold setCell
  by_cases hw : 0 ≤ r ∧ 0 ≤ c
  case neg => simp [hw]
  simp only [if_pos hw]
  by_cases hb : r.toNat < g.length
  case neg => rw [List.set_eq_of_length_le (Nat.le_of_not_lt hb)]
  unfold getCell
  by_cases hr : 0 ≤ r' ∧ 0 ≤ c'
  case neg => simp [hr]
  simp only [if_pos hr, List.getD_eq_getElem?_getD]
  by_cases hrr : r'.toNat = r.toNat
  · have hreq : r' = r := by omega
    have hcnat : c.toNat ≠ c'.toNat := by
      intro hcc
      exact h ⟨hreq, by omega⟩
    rw [hrr, List.getElem?_set_self hb, List.getElem?_eq_getElem hb]
    simp only [Option.getD_some]
    rw [List.getElem?_set_ne hcnat]
  · rw [List.getElem?_set_ne fun hh => hrr (Eq.symm hh)]

theorem getCell_setCell_self {g : Grid} {n : Nat} (hsq : SquareOfSize g n)
    {r c : Int} (h0r : 0 ≤ r) (h0c : 0 ≤ c) (hr : r < (n : Int)) (hc : c < (n : Int))
    (v : Cell) : getCell (setCell g r c v) r c = v := by
  obtain ⟨h1, h2⟩ := hsq
  have hw : 0 ≤ r ∧ 0 ≤ c := ⟨h0r, h0c⟩
  have hrn : r.toNat < g.length := by omega
  have hcn : c.toNat < (g.getD r.toNat []).length := by
    rw [h2 _ (getD_mem_of_lt hrn)]; omega
  rw [List.getD_eq_getElem?_getD] at hcn
  unfold setCell getCell
  rw [if_pos hw, if_pos hw]
  simp only [List.getD_eq_getElem?_getD]
  rw [List.getElem?_set_self hrn]
  simp only [Option.getD_some]
  rw [List.getElem?_set_self hcn]
  rfl

/-!  Lemmas about `placeWord`. -/

theorem spanCell_across_succ (row col : Int) (i : Nat) :
    spanCell row (col + 1) .across i = spanCell row col .across (i + 1) := by
  unfold spanCell
  push_cast
  ring

theorem spanCell_down_succ (row col : Int) (i : Nat) :
    spanCell (row + 1) col .down i = spanCell row col .down (i + 1) := by
  unfold spanCell
  push_cast
  ring

theorem charAt_cons_zero (ch : Char) (rest : List Char) : charAt (ch :: rest) 0 = ch := rfl

theorem charAt_cons_succ (ch : Char) (rest : List Char) (i : Nat) :
    charAt (ch :: rest) (i + 1) = charAt rest i := rfl

theorem length_placeWord : ∀ (w : List Char) (g : Grid) (row col : Int) (dir : Direction),
    (placeWord g w row col dir).length = g.length
  | [], _, _, _, _ => rfl
  | ch :: rest, g, row, col, dir => by
    cases dir
    case across =>
      show (placeWord (setCell g row col (some ch)) rest row (col + 1) .across).length = _
      rw [length_placeWord rest, length_setCell]
    case down =>
      show (placeWord (setCell g row col (some ch)) rest (row + 1) col .down).length = _
      rw [length_placeWord rest, length_setCell]

theorem squareOfSize_placeWord : ∀ (w : List Char) {g : Grid} {n : Nat}
    (_ : SquareOfSize g n) (row col : Int) (dir : Direction),
    SquareOfSize (placeWord g w row col dir) n
  | [], _, _, h, _, _, _ => h
  | ch :: rest, g, n, h, row, col, dir => by
    cases dir
    case across =>
      exact squareOfSize_placeWord rest (squareOfSize_setCell h row col (some ch)) row (col + 1) .across
    case down =>
      exact squareOfSize_placeWord rest (squareOfSize_setCell h row col (some ch)) (row + 1) col .down

theorem getCell_placeWord_off : ∀ (w : List Char) (g : Grid) (row col : Int)
    (dir : Direction) (r c : Int),
    (∀ i, i < w.length → spanCell row col dir i ≠ (r, c)) →
    getCell (placeWord g w row col dir) r c = getCell g r c
  | [], _, _, _, _, _, _, _ => rfl
  | ch :: rest, g, row, col, dir, r, c, hoff => by
    have h0 : ¬(r = row ∧ c = col) := by
      intro hrc
      exact hoff 0 (Nat.succ_pos _) (by
        unfold spanCell
        cases dir <;> simp [hrc.1, hrc.2])
    cases dir
    case across =>
      show getCell (placeWord (setCell g row col (some ch)) rest row (col + 1) .across) r c = _
      rw [getCell_placeWord_off rest _ row (col + 1) .across r c fun i hi => by
        rw [spanCell_across_succ]
        exact hoff (i + 1) (Nat.succ_lt_succ hi)]
      exact getCell_setCell_ne g row col r c (some ch) h0
    case down =>
      show getCell (placeWord (setCell g row col (some ch)) rest (row + 1) col .down) r c = _
      rw [getCell_placeWord_off rest _ (row + 1) col .down r c fun i hi => by
        rw [spanCell_down_succ]
        exact hoff (i + 1) (Nat.succ_lt_succ hi)]
      exact getCell_setCell_ne g row col r c (some ch) h0

/-- The bounds check of `canPlaceWord`, as a proposition on the span. -/
def spanInBounds (n : Nat) (row col : Int) (dir : Direction) (len : Nat) : Prop :=
  match dir with
  | .across => 0 ≤ row ∧ row < (n : Int) ∧ 0 ≤ col ∧ col + len ≤ (n : Int)
  | .down => 0 ≤ col ∧ col < (n : Int) ∧ 0 ≤ row ∧ row + len ≤ (n : Int)

theorem spanInBounds_cell {n : Nat} {row col : Int} {dir : Direction} {len : Nat}
    (h : spanInBounds n row col dir len) {i : Nat} (hi : i < len) :
    0 ≤ (spanCell row col dir i).1 ∧ (spanCell row col dir i).1 < (n : Int) ∧
      0 ≤ (spanCell row col dir i).2 ∧ (spanCell row col dir i).2 < (n : Int) := by
  cases dir <;> (unfold spanInBounds at h; unfold spanCell; simp only) <;> omega

theorem getCell_placeWord_span {n : Nat} : ∀ (w : List Char) (g : Grid) (row col : Int)
    (dir : Direction), SquareOfSize g n → spanInBounds n row col dir w.length →
    ∀ i, i < w.length →
    getCell (placeWord g w row col dir) (spanCell row col dir i).1
      (spanCell row col dir i).2 = some (charAt w i)
  | [], _, _, _, _, _, _, i, hi => absurd hi (by simp)
  | ch :: rest, g, row, col, dir, hsq, hb, i, hi => by
    have hcell := spanInBounds_cell hb (show 0 < (ch :: rest).length from Nat.succ_pos _)
    have h00 : spanCell row col dir 0 = (row, col) := by
      unfold spanCell; cases dir <;> simp
    rw [h00] at hcell
    cases dir
    case across =>
      show getCell (placeWord (setCell g row col (some ch)) rest row (col + 1) .across) _ _ = _
      match i, hi with
      | 0, _ =>
        rw [h00]
        rw [getCell_placeWord_off rest _ row (col + 1) .across row col fun j hj => by
          rw [spanCell_across_succ]
          simp only [spanCell, ne_eq, Prod.mk.injEq, not_and]
          intro _
          omega]
        rw [getCell_setCell_self hsq hcell.1 hcell.2.2.1 hcell.2.1 hcell.2.2.2]
        rfl
      | j + 1, hj =>
        rw [← spanCell_across_succ, charAt_cons_succ]
        refine getCell_placeWord_span rest _ row (col + 1) .across
          (squareOfSize_setCell hsq row col (some ch)) ?_ j (Nat.lt_of_succ_lt_succ hj)
        unfold spanInBounds at hb ⊢
        simp only [List.length_cons] at hb ⊢
        push_cast at hb ⊢
        omega
    case down =>
      show getCell (placeWord (setCell g row col (some ch)) rest (row + 1) col .down) _ _ = _
      match i, hi with
      | 0, _ =>
        rw [h00]
        rw [getCell_placeWord_off rest _ (row + 1) col .down row col fun j hj => by
          rw [spanCell_down_succ]
          simp only [spanCell, ne_eq, Prod.mk.injEq, not_and]
          intro hp
          omega]
        rw [getCell_setCell_self hsq hcell.1 hcell.2.2.1 hcell.2.1 hcell.2.2.2]
        rfl
      | j + 1, hj =>
        rw [← spanCell_down_succ, charAt_cons_succ]
        refine getCell_placeWord_span rest _ (row + 1) col .down
          (squareOfSize_setCell hsq row col (some ch)) ?_ j (Nat.lt_of_succ_lt_succ hj)
        unfold spanInBounds at hb ⊢
        simp only [List.length_cons] at hb ⊢
        push_cast at hb ⊢
        omega

/-!  Lemmas about `canPlaceWord`, `findIntersections` and the candidate pool. -/

theorem canPlaceWord_bounds {g : Grid} {w : List Char} {row col : Int} {dir : Direction}
    (h : canPlaceWord g w row col dir = true) :
    spanInBounds g.length row col dir w.length := by
  cases dir <;>
    (unfold canPlaceWord at h
     simp only [Bool.and_eq_true, decide_eq_true_eq] at h
     unfold spanInBounds
     exact ⟨h.1.1.1.1.1, h.1.1.1.1.2, h.1.1.1.2, h.1.1.2⟩)

theorem canPlaceWord_letter {g : Grid} {w : List Char} {row col : Int} {dir : Direction}
    (h : canPlaceWord g w row col dir = true) :
    ∀ i, i < w.length →
      getCell g (spanCell row col dir i).1 (spanCell row col dir i).2 = none ∨
      getCell g (spanCell row col dir i).1 (spanCell row col dir i).2 = some (charAt w i) := by
  intro i hi
  cases dir <;>
    (unfold canPlaceWord at h
     simp only [Bool.and_eq_true] at h
     have hcell := h.1.2
     rw [List.all_eq_true] at hcell
     have hx := hcell i (List.mem_range.mpr hi)
     simp only [Bool.and_eq_true, Bool.or_eq_true, decide_eq_true_eq] at hx
     exact hx.1)

theorem findIntersections_spec {cur placed : List Char} {ij : Nat × Nat}
    (h : ij ∈ findIntersections cur placed) :
    ij.1 < cur.length ∧ ij.2 < placed.length ∧ charAt cur ij.1 = charAt placed ij.2 := by
  unfold findIntersections at h
  rw [List.mem_flatMap] at h
  obtain ⟨i, hi, hmem⟩ := h
  rw [List.mem_filterMap] at hmem
  obtain ⟨j, hj, hij⟩ := hmem
  rw [List.mem_range] at hi hj
  by_cases hc : charAt cur i = charAt placed j
  · rw [if_pos hc] at hij
    cases hij
    exact ⟨hi, hj, hc⟩
  · rw [if_neg hc] at hij
    cases hij

theorem charAt_mem {w : List Char} {i : Nat} (h : i < w.length) : charAt w i ∈ w := by
  have : charAt w i = w[i] := by
    simp [charAt, List.getD_eq_getElem?_getD, List.getElem?_eq_getElem h]
  rw [this]
  exact List.getElem_mem h

theorem findIntersections_nil_of_disjoint {cur placed : List Char}
    (h : ∀ ch ∈ cur, ch ∉ placed) : findIntersections cur placed = [] := by
  unfold findIntersections
  rw [List.flatMap_eq_nil_iff]
  intro i hi
  rw [List.filterMap_eq_nil_iff]
  intro j hj
  rw [List.mem_range] at hi hj
  rw [if_neg]
  intro hc
  have h1 : charAt cur i ∈ cur := charAt_mem hi
  have h2 : charAt placed j ∈ placed := charAt_mem hj
  rw [hc] at h1
  exact h _ h1 h2

theorem collectCandidates_spec {g : Grid} {pws : List WordPlacement} {cur : WordInput}
    {b : WordPlacement} (h : b ∈ collectCandidates g pws cur) :
    ∃ pw ∈ pws, ∃ ij ∈ findIntersections cur.word pw.word,
      ∃ dir : Direction, ∃ pos : Int × Int,
      dir = (match pw.direction with | .across => .down | .down => .across) ∧
      pos = (match dir with
        | .across => (pw.row + (ij.2 : Int), pw.col - (ij.1 : Int))
        | .down => (pw.row - (ij.1 : Int), pw.col + (ij.2 : Int))) ∧
      canPlaceWord g cur.word pos.1 pos.2 dir = true ∧
      b = ⟨cur.word, cur.clue, pos.1, pos.2, dir,
        scorePlacement g cur.word pos.1 pos.2 dir pws⟩ := by
  unfold collectCandidates at h
  rw [List.mem_flatMap] at h
  obtain ⟨pw, hpw, hmem⟩ := h
  rw [List.mem_filterMap] at hmem
  obtain ⟨ij, hij, hb⟩ := hmem
  refine ⟨pw, hpw, ij, hij, _, _, rfl, rfl, ?_⟩
  dsimp only at hb
  split at hb
  · cases hb
    exact ⟨by assumption, rfl⟩
  · cases hb

theorem mem_collectCandidates {g : Grid} {pws : List WordPlacement} {cur : WordInput}
    {b : WordPlacement} (h : b ∈ collectCandidates g pws cur) :
    b.word = cur.word ∧ b.clue = cur.clue ∧
      canPlaceWord g cur.word b.row b.col b.direction = true ∧
      b.score = scorePlacement g cur.word b.row b.col b.direction pws := by
  obtain ⟨pw, _, ij, _, dir, pos, _, _, hcan, hb⟩ := collectCandidates_spec h
  subst hb
  exact ⟨rfl, rfl, hcan, rfl⟩

theorem selectBest_mem {cands : List WordPlacement} {b : WordPlacement}
    (h : selectBest cands = some b) : b ∈ cands := by
  unfold selectBest at h
  rw [List.head?_eq_some_iff] at h
  obtain ⟨ys, hys⟩ := h
  have : b ∈ List.insertionSort scoreGe cands := by rw [hys]; exact List.mem_cons_self b ys
  rwa [List.mem_insertionSort] at this

theorem placementLoop_some {g : Grid} {pws : List WordPlacement} {cur : WordInput}
    {mi : Int} {b : WordPlacement} :
    ∀ {fuel : Nat}, placementLoop g pws cur mi fuel = some b →
      selectBest (collectCandidates g pws cur) = some b ∧ mi ≤ b.score
  | 0, h => by cases h
  | fuel + 1, h => by
    unfold placementLoop at h
    split at h
    · split at h
      · cases h
        exact ⟨by assumption, by assumption⟩
      · exact placementLoop_some h
    · exact placementLoop_some h

theorem placementLoop_mem {g : Grid} {pws : List WordPlacement} {cur : WordInput}
    {mi : Int} {fuel : Nat} {b : WordPlacement}
    (h : placementLoop g pws cur mi fuel = some b) : b ∈ collectCandidates g pws cur :=
  selectBest_mem (placementLoop_some h).1

/-!  The placement-loop invariant. -/

/-- Invariant maintained by the placement loop: every placed word's span is on
the grid, and every non-null cell is covered by some placed word. -/
def GridInv (g : Grid) (pws : List WordPlacement) : Prop :=
  (∀ w ∈ pws, spanMatches g w) ∧ ∀ r c, getCell g r c ≠ none → coveredBy pws r c

theorem gridInv_placeWord {n : Nat} {g : Grid} {pws : List WordPlacement}
    {cur : List Char} {row col : Int} {dir : Direction} {b : WordPlacement}
    (hsq : SquareOfSize g n) (hinv : GridInv g pws)
    (hcan : canPlaceWord g cur row col dir = true)
    (hbw : b.word = cur) (hbr : b.row = row) (hbc : b.col = col)
    (hbd : b.direction = dir) :
    GridInv (placeWord g cur row col dir) (pws ++ [b]) := by
  have hbnd : spanInBounds n row col dir cur.length := by
    have := canPlaceWord_bounds hcan
    rwa [hsq.1] at this
  constructor
  · intro w' hw'
    rcases List.mem_append.mp hw' with hmem | hmem
    · intro i hi
      have hold := hinv.1 w' hmem i hi
      by_cases hon : ∃ j, j < cur.length ∧
          spanCell row col dir j = spanCell w'.row w'.col w'.direction i
      · obtain ⟨j, hj, hsp⟩ := hon
        rcases canPlaceWord_letter hcan j hj with h' | h'
        · rw [hsp, hold] at h'
          cases h'
        · rw [hsp, hold] at h'
          have hchar : charAt w'.word i = charAt cur j := Option.some.inj h'
          rw [← hsp, getCell_placeWord_span cur g row col dir hsq hbnd j hj, hchar]
      · push_neg at hon
        rw [getCell_placeWord_off cur g row col dir
          (spanCell w'.row w'.col w'.direction i).1
          (spanCell w'.row w'.col w'.direction i).2
          (fun j hj => hon j hj)]
        exact hold
    · have hb : w' = b := by simpa using hmem
      subst hb
      intro i hi
      rw [hbw] at hi
      rw [hbw, hbr, hbc, hbd]
      exact getCell_placeWord_span cur g row col dir hsq hbnd i hi
  · intro r c hne
    by_cases hon : ∃ j, j < cur.length ∧ spanCell row col dir j = (r, c)
    · obtain ⟨j, hj, hsp⟩ := hon
      refine ⟨b, List.mem_append_right _ (List.mem_singleton_self b), j, ?_, ?_⟩
      · rw [hbw]; exact hj
      · rw [hbr, hbc, hbd]; exact hsp
    · push_neg at hon
      rw [getCell_placeWord_off cur g row col dir r c hon] at hne
      obtain ⟨w', hw', j, hj, hsp⟩ := hinv.2 r c hne
      exact ⟨w', List.mem_append_left _ hw', j, hj, hsp⟩

theorem placeAll_spec {n : Nat} : ∀ (rest : List WordInput) (g : Grid)
    (pws : List WordPlacement) (ma : Nat) (mi : Int),
    SquareOfSize g n → GridInv g pws →
    SquareOfSize (placeAll ma mi rest g pws).1 n ∧
    GridInv (placeAll ma mi rest g pws).1 (placeAll ma mi rest g pws).2
  | [], _, _, _, _, hsq, hinv => ⟨hsq, hinv⟩
  | cur :: rest, g, pws, ma, mi, hsq, hinv => by
    unfold placeAll
    cases hpl : placementLoop g pws cur mi ma with
    | none => exact placeAll_spec rest g pws ma mi hsq hinv
    | some best =>
      obtain ⟨hw, _, hcan, _⟩ := mem_collectCandidates (placementLoop_mem hpl)
      exact placeAll_spec rest _ _ ma mi
        (squareOfSize_placeWord _ hsq _ _ _)
        (gridInv_placeWord hsq hinv hcan hw rfl rfl rfl)

theorem placeAll_suffix : ∀ (rest : List WordInput) (g : Grid)
    (pws : List WordPlacement) (ma : Nat) (mi : Int),
    ∃ extra, (placeAll ma mi rest g pws).2 = pws ++ extra
  | [], _, pws, _, _ => ⟨[], (List.append_nil pws).symm⟩
  | cur :: rest, g, pws, ma, mi => by
    unfold placeAll
    cases hpl : placementLoop g pws cur mi ma with
    | none => exact placeAll_suffix rest g pws ma mi
    | some best =>
      obtain ⟨extra, hex⟩ := placeAll_suffix rest
        (placeWord g cur.word best.row best.col best.direction) (pws ++ [best]) ma mi
      exact ⟨best :: extra, by rw [hex, List.append_assoc, List.singleton_append]⟩

theorem collectCandidates_nil_of_disjoint {g : Grid} {pws : List WordPlacement}
    {cur : WordInput} (h : ∀ pw ∈ pws, ∀ ch ∈ cur.word, ch ∉ pw.word) :
    collectCandidates g pws cur = [] := by
  unfold collectCandidates
  rw [List.flatMap_eq_nil_iff]
  intro pw hpw
  rw [findIntersections_nil_of_disjoint (h pw hpw)]
  rfl

theorem placementLoop_none_of_nil {g : Grid} {pws : List WordPlacement}
    {cur : WordInput} {mi : Int} (h : collectCandidates g pws cur = []) :
    ∀ fuel, placementLoop g pws cur mi fuel = none
  | 0 => rfl
  | fuel + 1 => by
    unfold placementLoop
    rw [h]
    exact placementLoop_none_of_nil h fuel

theorem placeAll_disjoint : ∀ (rest : List WordInput) (g : Grid)
    (pws : List WordPlacement) (ma : Nat) (mi : Int),
    (∀ cur ∈ rest, ∀ pw ∈ pws, ∀ ch ∈ cur.word, ch ∉ pw.word) →
    placeAll ma mi rest g pws = (g, pws)
  | [], _, _, _, _, _ => rfl
  | cur :: rest, g, pws, ma, mi, h => by
    unfold placeAll
    rw [placementLoop_none_of_nil
      (collectCandidates_nil_of_disjoint (h cur (List.mem_cons_self cur rest))) ma]
    exact placeAll_disjoint rest g pws ma mi fun c hc => h c (List.mem_cons_of_mem cur hc)

/-!  Lemmas about the bounds scan of `compactGrid`. -/

theorem foldl_boundsStep_mono (g : Grid) : ∀ (ps : List (Nat × Nat)) (b : Bounds),
    (ps.foldl (boundsStep g) b).minRow ≤ b.minRow ∧
    b.maxRow ≤ (ps.foldl (boundsStep g) b).maxRow ∧
    (ps.foldl (boundsStep g) b).minCol ≤ b.minCol ∧
    b.maxCol ≤ (ps.foldl (boundsStep g) b).maxCol
  | [], _ => ⟨le_refl _, le_refl _, le_refl _, le_refl _⟩
  | p :: ps, b => by
    rw [List.foldl_cons]
    by_cases hp : getCell g p.1 p.2 ≠ none
    · have hb : boundsStep g b p = ⟨min b.minRow p.1, max b.maxRow p.1,
          min b.minCol p.2, max b.maxCol p.2⟩ := by
        unfold boundsStep; rw [if_pos hp]
      rw [hb]
      have ih := foldl_boundsStep_mono g ps ⟨min b.minRow p.1, max b.maxRow p.1,
          min b.minCol p.2, max b.maxCol p.2⟩
      exact ⟨le_trans ih.1 (min_le_left _ _), le_trans (le_max_left _ _) ih.2.1,
        le_trans ih.2.2.1 (min_le_left _ _), le_trans (le_max_left _ _) ih.2.2.2⟩
    · have hb : boundsStep g b p = b := by unfold boundsStep; rw [if_neg hp]
      rw [hb]
      exact foldl_boundsStep_mono g ps b

theorem foldl_boundsStep_le (g : Grid) : ∀ (ps : List (Nat × Nat)) (b : Bounds)
    (p : Nat × Nat), p ∈ ps → getCell g p.1 p.2 ≠ none →
    (ps.foldl (boundsStep g) b).minRow ≤ p.1 ∧
    (p.1 : Int) ≤ (ps.foldl (boundsStep g) b).maxRow ∧
    (ps.foldl (boundsStep g) b).minCol ≤ p.2 ∧
    (p.2 : Int) ≤ (ps.foldl (boundsStep g) b).maxCol
  | [], _, _, hmem, _ => absurd hmem (List.not_mem_nil _)
  | q :: ps, b, p, hmem, hcont => by
    rw [List.foldl_cons]
    rcases List.mem_cons.mp hmem with heq | hmem'
    · subst heq
      have hmono := foldl_boundsStep_mono g ps (boundsStep g b p)
      have hstep : (boundsStep g b p).minRow ≤ (p.1 : Int) ∧
          (p.1 : Int) ≤ (boundsStep g b p).maxRow ∧
          (boundsStep g b p).minCol ≤ (p.2 : Int) ∧
          (p.2 : Int) ≤ (boundsStep g b p).maxCol := by
        unfold boundsStep
        rw [if_pos hcont]
        exact ⟨min_le_right _ _, le_max_right _ _, min_le_right _ _, le_max_right _ _⟩
      exact ⟨le_trans hmono.1 hstep.1, le_trans hstep.2.1 hmono.2.1,
        le_trans hmono.2.2.1 hstep.2.2.1, le_trans hstep.2.2.2 hmono.2.2.2⟩
    · exact foldl_boundsStep_le g ps (boundsStep g b q) p hmem' hcont

theorem foldl_boundsStep_attain (g : Grid) : ∀ (ps : List (Nat × Nat)) (b : Bounds),
    ((ps.foldl (boundsStep g) b).minRow = b.minRow ∨
      ∃ p ∈ ps, getCell g p.1 p.2 ≠ none ∧ (ps.foldl (boundsStep g) b).minRow = p.1) ∧
    ((ps.foldl (boundsStep g) b).maxRow = b.maxRow ∨
      ∃ p ∈ ps, getCell g p.1 p.2 ≠ none ∧ (ps.foldl (boundsStep g) b).maxRow = p.1) ∧
    ((ps.foldl (boundsStep g) b).minCol = b.minCol ∨
      ∃ p ∈ ps, getCell g p.1 p.2 ≠ none ∧ (ps.foldl (boundsStep g) b).minCol = p.2) ∧
    ((ps.foldl (boundsStep g) b).maxCol = b.maxCol ∨
      ∃ p ∈ ps, getCell g p.1 p.2 ≠ none ∧ (ps.foldl (boundsStep g) b).maxCol = p.2)
  | [], _ => ⟨Or.inl rfl, Or.inl rfl, Or.inl rfl, Or.inl rfl⟩
  | q :: ps, b => by
    rw [List.foldl_cons]
    have ih := foldl_boundsStep_attain g ps (boundsStep g b q)
    by_cases hq : getCell g q.1 q.2 ≠ none
    · have hb : boundsStep g b q = ⟨min b.minRow q.1, max b.maxRow q.1,
          min b.minCol q.2, max b.maxCol q.2⟩ := by
        unfold boundsStep; rw [if_pos hq]
      rw [hb] at ih ⊢
      refine ⟨?_, ?_, ?_, ?_⟩
      · rcases ih.1 with h | ⟨p, hp, hc, he⟩
        · simp only at h
          rcases min_cases b.minRow (q.1 : Int) with ⟨hmin, _⟩ | ⟨hmin, _⟩
          · exact Or.inl (h.trans hmin)
          · exact Or.inr ⟨q, List.mem_cons_self _ _, hq, h.trans hmin⟩
        · exact Or.inr ⟨p, List.mem_cons_of_mem _ hp, hc, he⟩
      · rcases ih.2.1 with h | ⟨p, hp, hc, he⟩
        · simp only at h
          rcases max_cases b.maxRow (q.1 : Int) with ⟨hmax, _⟩ | ⟨hmax, _⟩
          · exact Or.inl (h.trans hmax)
          · exact Or.inr ⟨q, List.mem_cons_self _ _, hq, h.trans hmax⟩
        · exact Or.inr ⟨p, List.mem_cons_of_mem _ hp, hc, he⟩
      · rcases ih.2.2.1 with h | ⟨p, hp, hc, he⟩
        · simp only at h
          rcases min_cases b.minCol (q.2 : Int) with ⟨hmin, _⟩ | ⟨hmin, _⟩
          · exact Or.inl (h.trans hmin)
          · exact Or.inr ⟨q, List.mem_cons_self _ _, hq, h.trans hmin⟩
        · exact Or.inr ⟨p, List.mem_cons_of_mem _ hp, hc, he⟩
      · rcases ih.2.2.2 with h | ⟨p, hp, hc, he⟩
        · simp only at h
          rcases max_cases b.maxCol (q.2 : Int) with ⟨hmax, _⟩ | ⟨hmax, _⟩
          · exact Or.inl (h.trans hmax)
          · exact Or.inr ⟨q, List.mem_cons_self _ _, hq, h.trans hmax⟩
        · exact Or.inr ⟨p, List.mem_cons_of_mem _ hp, hc, he⟩
    · have hb : boundsStep g b q = b := by unfold boundsStep; rw [if_neg hq]
      rw [hb] at ih ⊢
      refine ⟨?_, ?_, ?_, ?_⟩
      · rcases ih.1 with h | ⟨p, hp, hc, he⟩
        · exact Or.inl h
        · exact Or.inr ⟨p, List.mem_cons_of_mem _ hp, hc, he⟩
      · rcases ih.2.1 with h | ⟨p, hp, hc, he⟩
        · exact Or.inl h
        · exact Or.inr ⟨p, List.mem_cons_of_mem _ hp, hc, he⟩
      · rcases ih.2.2.1 with h | ⟨p, hp, hc, he⟩
        · exact Or.inl h
        · exact Or.inr ⟨p, List.mem_cons_of_mem _ hp, hc, he⟩
      · rcases ih.2.2.2 with h | ⟨p, hp, hc, he⟩
        · exact Or.inl h
        · exact Or.inr ⟨p, List.mem_cons_of_mem _ hp, hc, he⟩

theorem mem_scanPositions {n : Nat} {p : Nat × Nat} :
    p ∈ scanPositions n ↔ p.1 < n ∧ p.2 < n := by
  unfold scanPositions
  rw [List.mem_flatMap]
  constructor
  · rintro ⟨r, hr, hmem⟩
    rw [List.mem_map] at hmem
    obtain ⟨c, hc, hpc⟩ := hmem
    rw [List.mem_range] at hr hc
    rw [← hpc]
    exact ⟨hr, hc⟩
  · rintro ⟨h1, h2⟩
    exact ⟨p.1, List.mem_range.mpr h1,
      List.mem_map.mpr ⟨p.2, List.mem_range.mpr h2, rfl⟩⟩

theorem getCell_bounds {g : Grid} {n : Nat} (hsq : SquareOfSize g n) {r c : Int}
    (h : getCell g r c ≠ none) :
    0 ≤ r ∧ r < (n : Int) ∧ 0 ≤ c ∧ c < (n : Int) := by
  have hgn : g.length = n := hsq.1
  unfold getCell at h
  by_cases hw : 0 ≤ r ∧ 0 ≤ c
  · rw [if_pos hw] at h
    by_cases hr : r.toNat < g.length
    · have hrow : g.getD r.toNat [] ∈ g := getD_mem_of_lt hr
      have hlen := hsq.2 _ hrow
      by_cases hc : c.toNat < (g.getD r.toNat []).length
      · refine ⟨hw.1, by omega, hw.2, by omega⟩
      · rw [List.getD_eq_getElem?_getD, List.getElem?_eq_none (Nat.le_of_not_lt hc)] at h
        exact absurd rfl h
    · rw [List.getD_eq_getElem?_getD g, List.getElem?_eq_none (Nat.le_of_not_lt hr)] at h
      simp at h
  · rw [if_neg hw] at h
    exact absurd rfl h

theorem scanBounds_le {g : Grid} {n : Nat} (hsq : SquareOfSize g n) {r c : Int}
    (h : getCell g r c ≠ none) :
    (scanBounds g).minRow ≤ r ∧ r ≤ (scanBounds g).maxRow ∧
    (scanBounds g).minCol ≤ c ∧ c ≤ (scanBounds g).maxCol := by
  have hb := getCell_bounds hsq h
  have hgn : g.length = n := hsq.1
  have hmem : ((r.toNat, c.toNat) : Nat × Nat) ∈ scanPositions g.length := by
    rw [mem_scanPositions]
    constructor <;> (simp only; omega)
  have hcont : getCell g ((r.toNat : Nat) : Int) ((c.toNat : Nat) : Int) ≠ none := by
    rw [Int.toNat_of_nonneg hb.1, Int.toNat_of_nonneg hb.2.2.1]
    exact h
  have := foldl_boundsStep_le g (scanPositions g.length)
    ⟨(g.length : Int), -1, (g.length : Int), -1⟩ (r.toNat, c.toNat) hmem hcont
  unfold scanBounds
  rw [Int.toNat_of_nonneg hb.1, Int.toNat_of_nonneg hb.2.2.1] at this
  exact this

theorem scanBounds_attained {g : Grid} {n : Nat} (hsq : SquareOfSize g n)
    (hx : ∃ r c, getCell g r c ≠ none) :
    (∃ c, getCell g (scanBounds g).minRow c ≠ none) ∧
    (∃ c, getCell g (scanBounds g).maxRow c ≠ none) ∧
    (∃ r, getCell g r (scanBounds g).minCol ≠ none) ∧
    (∃ r, getCell g r (scanBounds g).maxCol ≠ none) := by
  obtain ⟨r0, c0, hx⟩ := hx
  have hb0 := getCell_bounds hsq hx
  have hle := scanBounds_le hsq hx
  have hat := foldl_boundsStep_attain g (scanPositions g.length)
    ⟨(g.length : Int), -1, (g.length : Int), -1⟩
  have hn : g.length = n := hsq.1
  refine ⟨?_, ?_, ?_, ?_⟩
  · rcases hat.1 with h | ⟨p, _, hc, he⟩
    · exfalso
      have : (scanBounds g).minRow = (g.length : Int) := h
      omega
    · have : (scanBounds g).minRow = (p.1 : Int) := he
      exact ⟨p.2, by rw [this]; exact hc⟩
  · rcases hat.2.1 with h | ⟨p, _, hc, he⟩
    · exfalso
      have : (scanBounds g).maxRow = -1 := h
      omega
    · have : (scanBounds g).maxRow = (p.1 : Int) := he
      exact ⟨p.2, by rw [this]; exact hc⟩
  · rcases hat.2.2.1 with h | ⟨p, _, hc, he⟩
    · exfalso
      have : (scanBounds g).minCol = (g.length : Int) := h
      omega
    · have : (scanBounds g).minCol = (p.2 : Int) := he
      exact ⟨p.1, by rw [this]; exact hc⟩
  · rcases hat.2.2.2 with h | ⟨p, _, hc, he⟩
    · exfalso
      have : (scanBounds g).maxCol = -1 := h
      omega
    · have : (scanBounds g).maxCol = (p.2 : Int) := he
      exact ⟨p.1, by rw [this]; exact hc⟩

theorem scanBounds_range {g : Grid} {n : Nat} (hsq : SquareOfSize g n)
    (hx : ∃ r c, getCell g r c ≠ none) :
    0 ≤ (scanBounds g).minRow ∧ (scanBounds g).minRow ≤ (scanBounds g).maxRow ∧
    (scanBounds g).maxRow ≤ (n : Int) - 1 ∧
    0 ≤ (scanBounds g).minCol ∧ (scanBounds g).minCol ≤ (scanBounds g).maxCol ∧
    (scanBounds g).maxCol ≤ (n : Int) - 1 := by
  obtain ⟨hminR, hmaxR, hminC, hmaxC⟩ := scanBounds_attained hsq hx
  obtain ⟨c1, hc1⟩ := hminR
  obtain ⟨c2, hc2⟩ := hmaxR
  obtain ⟨r3, hr3⟩ := hminC
  obtain ⟨r4, hr4⟩ := hmaxC
  have h1 := getCell_bounds hsq hc1
  have h2 := getCell_bounds hsq hc2
  have h3 := getCell_bounds hsq hr3
  have h4 := getCell_bounds hsq hr4
  have l1 := scanBounds_le hsq hc1
  have l2 := scanBounds_le hsq hc2
  exact ⟨h1.1, l1.2.1, by omega, h3.2.2.1, le_trans l1.2.2.1 l1.2.2.2, by omega⟩

/-!  The behaviour of `compactGrid` on grids with content. -/

theorem getCell_mkGrid {m : Nat} (f : Nat → Nat → Cell) (r c : Int) :
    getCell ((List.range m).map fun i => (List.range m).map fun j => f i j) r c =
    if 0 ≤ r ∧ r < (m : Int) ∧ 0 ≤ c ∧ c < (m : Int) then f r.toNat c.toNat else none := by
  unfold getCell
  by_cases hw : 0 ≤ r ∧ 0 ≤ c
  · rw [if_pos hw]
    by_cases hr : r.toNat < m
    · have hrow : ((List.range m).map fun i => (List.range m).map fun j => f i j).getD
          r.toNat [] = (List.range m).map fun j => f r.toNat j := by
        rw [List.getD_eq_getElem?_getD, List.getElem?_map, List.getElem?_range hr]
        rfl
      rw [hrow]
      by_cases hc : c.toNat < m
      · rw [if_pos ⟨hw.1, by omega, hw.2, by omega⟩,
          List.getD_eq_getElem?_getD, List.getElem?_map, List.getElem?_range hc]
        rfl
      · rw [if_neg (by omega), List.getD_eq_getElem?_getD,
          List.getElem?_eq_none (by simpa using Nat.le_of_not_lt hc)]
        rfl
    · have hrow : ((List.range m).map fun i => (List.range m).map fun j => f i j).getD
          r.toNat [] = [] := by
        rw [List.getD_eq_getElem?_getD,
          List.getElem?_eq_none (by simpa using Nat.le_of_not_lt hr)]
        rfl
      rw [hrow, if_neg (by omega)]
      rfl
  · rw [if_neg hw, if_neg (by omega)]

theorem squareOfSize_mkGrid {m : Nat} (f : Nat → Nat → Cell) :
    SquareOfSize ((List.range m).map fun i => (List.range m).map fun j => f i j) m := by
  constructor
  · simp
  · intro row hrow
    rw [List.mem_map] at hrow
    obtain ⟨i, _, hi⟩ := hrow
    rw [← hi]
    simp

theorem compactGrid_spec {g : Grid} {n : Nat} (ws : List WordPlacement)
    (hsq : SquareOfSize g n) (hx : ∃ r c, getCell g r c ≠ none) :
    ∃ res, compactGrid g ws = some res ∧
      (res.size : Int) = max ((scanBounds g).maxRow - (scanBounds g).minRow + 1)
        ((scanBounds g).maxCol - (scanBounds g).minCol + 1) ∧
      SquareOfSize res.grid res.size ∧
      (∀ r c : Int, getCell res.grid r c =
        if 0 ≤ r ∧ r ≤ (scanBounds g).maxRow - (scanBounds g).minRow ∧
            0 ≤ c ∧ c ≤ (scanBounds g).maxCol - (scanBounds g).minCol
        then getCell g ((scanBounds g).minRow + r) ((scanBounds g).minCol + c)
        else none) ∧
      res.words = ws.map fun w => ⟨w.word, w.clue, w.row - (scanBounds g).minRow,
        w.col - (scanBounds g).minCol, w.direction, w.score⟩ := by
  obtain ⟨hr0, hrr, hr1, hc0, hcc, hc1⟩ := scanBounds_range hsq hx
  have hgn : g.length = n := hsq.1
  set b := scanBounds g with hb
  have hclampR : max 0 (b.minRow - 0) = b.minRow := by omega
  have hclampR' : min ((g.length : Int) - 1) (b.maxRow + 0) = b.maxRow := by omega
  have hclampC : max 0 (b.minCol - 0) = b.minCol := by omega
  have hclampC' : min ((g.length : Int) - 1) (b.maxCol + 0) = b.maxCol := by omega
  have hszpos : (0 : Int) ≤ max (b.maxRow - b.minRow + 1) (b.maxCol - b.minCol + 1) := by
    have : (0 : Int) ≤ b.maxRow - b.minRow + 1 := by omega
    omega
  have heq : compactGrid g ws = some
      ⟨(max (b.maxRow - b.minRow + 1) (b.maxCol - b.minCol + 1)).toNat,
       (List.range (max (b.maxRow - b.minRow + 1) (b.maxCol - b.minCol + 1)).toNat).map
         fun (r : Nat) => (List.range (max (b.maxRow - b.minRow + 1)
             (b.maxCol - b.minCol + 1)).toNat).map
           fun (c : Nat) => if (r : Int) ≤ b.maxRow - b.minRow ∧ (c : Int) ≤ b.maxCol - b.minCol
             then getCell g (b.minRow + (r : Int)) (b.minCol + (c : Int)) else none,
       ws.map fun w => ⟨w.word, w.clue, w.row - b.minRow, w.col - b.minCol,
         w.direction, w.score⟩⟩ := by
    simp only [compactGrid]
    rw [← hb, hclampR, hclampR', hclampC, hclampC', if_pos hszpos]
  refine ⟨_, heq, ?_, ?_, ?_, rfl⟩
  · simp only
    omega
  · exact squareOfSize_mkGrid _
  · intro r c
    simp only
    rw [getCell_mkGrid]
    have hsz : ((max (b.maxRow - b.minRow + 1) (b.maxCol - b.minCol + 1)).toNat : Int) =
        max (b.maxRow - b.minRow + 1) (b.maxCol - b.minCol + 1) := by omega
    by_cases hcond : 0 ≤ r ∧ r ≤ b.maxRow - b.minRow ∧ 0 ≤ c ∧ c ≤ b.maxCol - b.minCol
    · rw [if_pos hcond, if_pos (by omega)]
      rw [if_pos (by constructor <;> omega)]
      rw [Int.toNat_of_nonneg hcond.1, Int.toNat_of_nonneg hcond.2.2.1]
    · rw [if_neg hcond]
      by_cases hin : 0 ≤ r ∧ r < ((max (b.maxRow - b.minRow + 1)
          (b.maxCol - b.minCol + 1)).toNat : Int) ∧ 0 ≤ c ∧
          c < ((max (b.maxRow - b.minRow + 1) (b.maxCol - b.minCol + 1)).toNat : Int)
      · rw [if_pos hin, if_neg (by
          rw [Int.toNat_of_nonneg hin.1, Int.toNat_of_nonneg hin.2.2.1]
          omega)]
      · rw [if_neg hin]

theorem spanCell_shift (row col dr dc : Int) (dir : Direction) (i : Nat) :
    spanCell (row - dr) (col - dc) dir i =
      ((spanCell row col dir i).1 - dr, (spanCell row col dir i).2 - dc) := by
  unfold spanCell
  cases dir <;> (simp only [Prod.mk.injEq]; constructor <;> ring)

theorem compactGrid_borders {g : Grid} {n : Nat} {ws : List WordPlacement}
    {res : CompactResult} (hsq : SquareOfSize g n)
    (hx : ∃ r c, getCell g r c ≠ none) (hres : compactGrid g ws = some res) :
    0 < res.size ∧
    (∃ c, getCell res.grid 0 c ≠ none) ∧ (∃ r, getCell res.grid r 0 ≠ none) ∧
    ((∃ c, getCell res.grid ((res.size : Int) - 1) c ≠ none) ∨
     (∃ r, getCell res.grid r ((res.size : Int) - 1) ≠ none)) := by
  obtain ⟨res', heq, hsize, _, hcell, _⟩ := compactGrid_spec ws hsq hx
  rw [hres] at heq
  cases heq
  obtain ⟨hr0, hrr, hr1, hc0, hcc, hc1⟩ := scanBounds_range hsq hx
  obtain ⟨⟨c1, hc1'⟩, ⟨c2, hc2'⟩, ⟨r3, hr3'⟩, ⟨r4, hr4'⟩⟩ := scanBounds_attained hsq hx
  have hb1 := scanBounds_le hsq hc1'
  have hb2 := scanBounds_le hsq hc2'
  have hb3 := scanBounds_le hsq hr3'
  have hb4 := scanBounds_le hsq hr4'
  refine ⟨by omega, ?_, ?_, ?_⟩
  · refine ⟨c1 - (scanBounds g).minCol, ?_⟩
    rw [hcell]
    rw [if_pos (by omega)]
    have : (scanBounds g).minRow + 0 = (scanBounds g).minRow := by ring
    rw [this]
    have : (scanBounds g).minCol + (c1 - (scanBounds g).minCol) = c1 := by ring
    rw [this]
    exact hc1'
  · refine ⟨r3 - (scanBounds g).minRow, ?_⟩
    rw [hcell]
    rw [if_pos (by omega)]
    have : (scanBounds g).minRow + (r3 - (scanBounds g).minRow) = r3 := by ring
    rw [this]
    have : (scanBounds g).minCol + 0 = (scanBounds g).minCol := by ring
    rw [this]
    exact hr3'
  · by_cases hmw : (scanBounds g).maxCol - (scanBounds g).minCol ≤
        (scanBounds g).maxRow - (scanBounds g).minRow
    · refine Or.inl ⟨c2 - (scanBounds g).minCol, ?_⟩
      rw [hcell]
      have hlast : (res.size : Int) - 1 = (scanBounds g).maxRow - (scanBounds g).minRow := by
        omega
      rw [hlast, if_pos (by omega)]
      have : (scanBounds g).minRow + ((scanBounds g).maxRow - (scanBounds g).minRow)
          = (scanBounds g).maxRow := by ring
      rw [this]
      have : (scanBounds g).minCol + (c2 - (scanBounds g).minCol) = c2 := by ring
      rw [this]
      exact hc2'
    · refine Or.inr ⟨r4 - (scanBounds g).minRow, ?_⟩
      rw [hcell]
      have hlast : (res.size : Int) - 1 = (scanBounds g).maxCol - (scanBounds g).minCol := by
        omega
      rw [hlast, if_pos (by omega)]
      have : (scanBounds g).minRow + (r4 - (scanBounds g).minRow) = r4 := by ring
      rw [this]
      have : (scanBounds g).minCol + ((scanBounds g).maxCol - (scanBounds g).minCol)
          = (scanBounds g).maxCol := by ring
      rw [this]
      exact hr4'

theorem compactGrid_spanMatches {g : Grid} {n : Nat} {ws : List WordPlacement}
    {res : CompactResult} (hsq : SquareOfSize g n)
    (hx : ∃ r c, getCell g r c ≠ none) (hres : compactGrid g ws = some res)
    (hall : ∀ w ∈ ws, spanMatches g w) :
    ∀ w' ∈ res.words, spanMatches res.grid w' := by
  obtain ⟨res', heq, _, _, hcell, hwords⟩ := compactGrid_spec ws hsq hx
  rw [hres] at heq
  cases heq
  intro w' hw'
  rw [hwords, List.mem_map] at hw'
  obtain ⟨w, hw, hshift⟩ := hw'
  subst hshift
  intro i hi
  simp only at hi ⊢
  have hold := hall w hw i hi
  have hne : getCell g (spanCell w.row w.col w.direction i).1
      (spanCell w.row w.col w.direction i).2 ≠ none := by
    rw [hold]; exact Option.some_ne_none _
  have hle := scanBounds_le hsq hne
  rw [spanCell_shift]
  rw [hcell]
  rw [if_pos (by omega)]
  have e1 : (scanBounds g).minRow + ((spanCell w.row w.col w.direction i).1 -
      (scanBounds g).minRow) = (spanCell w.row w.col w.direction i).1 := by ring
  have e2 : (scanBounds g).minCol + ((spanCell w.row w.col w.direction i).2 -
      (scanBounds g).minCol) = (spanCell w.row w.col w.direction i).2 := by ring
  rw [e1, e2]
  exact hold

theorem compactGrid_covered {g : Grid} {n : Nat} {ws : List WordPlacement}
    {res : CompactResult} (hsq : SquareOfSize g n)
    (hx : ∃ r c, getCell g r c ≠ none) (hres : compactGrid g ws = some res)
    (hcov : ∀ r c, getCell g r c ≠ none → coveredBy ws r c) :
    ∀ r c, getCell res.grid r c ≠ none → coveredBy res.words r c := by
  obtain ⟨res', heq, _, _, hcell, hwords⟩ := compactGrid_spec ws hsq hx
  rw [hres] at heq
  cases heq
  intro r c hne
  rw [hcell] at hne
  by_cases hcond : 0 ≤ r ∧ r ≤ (scanBounds g).maxRow - (scanBounds g).minRow ∧
      0 ≤ c ∧ c ≤ (scanBounds g).maxCol - (scanBounds g).minCol
  · rw [if_pos hcond] at hne
    obtain ⟨w, hw, i, hi, hsp⟩ := hcov _ _ hne
    refine ⟨⟨w.word, w.clue, w.row - (scanBounds g).minRow,
      w.col - (scanBounds g).minCol, w.direction, w.score⟩, ?_, i, hi, ?_⟩
    · rw [hwords, List.mem_map]
      exact ⟨w, hw, rfl⟩
    · simp only
      rw [spanCell_shift, hsp]
      simp only [Prod.mk.injEq]
      constructor <;> ring
  · rw [if_neg hcond] at hne
    exact absurd rfl hne

theorem foldl_boundsStep_id (g : Grid) : ∀ (ps : List (Nat × Nat)) (b : Bounds),
    (∀ p ∈ ps, getCell g p.1 p.2 = none) → ps.foldl (boundsStep g) b = b
  | [], _, _ => rfl
  | p :: ps, b, h => by
    rw [List.foldl_cons]
    have hb : boundsStep g b p = b := by
      unfold boundsStep
      rw [if_neg (by simpa using h p (List.mem_cons_self _ _))]
    rw [hb]
    exact foldl_boundsStep_id g ps b fun q hq => h q (List.mem_cons_of_mem _ hq)

theorem getCell_eq_getElem {g : Grid} {i j : Nat} (hi : i < g.length)
    (hj : j < (g.getD i []).length) :
    getCell g (i : Int) (j : Int) = (g.getD i []).getD j none := by
  unfold getCell
  rw [if_pos ⟨Int.natCast_nonneg i, Int.natCast_nonneg j⟩]
  rw [Int.toNat_ofNat, Int.toNat_ofNat]

theorem grid_eq_of_cells {g₁ g₂ : Grid} {n : Nat} (h₁ : SquareOfSize g₁ n)
    (h₂ : SquareOfSize g₂ n) (h : ∀ r c : Int, getCell g₁ r c = getCell g₂ r c) :
    g₁ = g₂ := by
  apply List.ext_getElem (by rw [h₁.1, h₂.1])
  intro i hi₁ hi₂
  apply List.ext_getElem
  · rw [h₁.2 _ (List.getElem_mem hi₁), h₂.2 _ (List.getElem_mem hi₂)]
  intro j hj₁ hj₂
  have hlen₁ : j < (g₁.getD i []).length := by
    rw [List.getD_eq_getElem?_getD, List.getElem?_eq_getElem hi₁]
    simpa using hj₁
  have hlen₂ : j < (g₂.getD i []).length := by
    rw [List.getD_eq_getElem?_getD, List.getElem?_eq_getElem hi₂]
    simpa using hj₂
  have hc := h i j
  rw [getCell_eq_getElem hi₁ hlen₁, getCell_eq_getElem hi₂ hlen₂] at hc
  have hgd₁ : g₁.getD i [] = g₁[i] := by
    rw [List.getD_eq_getElem?_getD, List.getElem?_eq_getElem hi₁]
    rfl
  have hgd₂ : g₂.getD i [] = g₂[i] := by
    rw [List.getD_eq_getElem?_getD, List.getElem?_eq_getElem hi₂]
    rfl
  rw [hgd₁, hgd₂] at hc
  rw [List.getD_eq_getElem?_getD, List.getElem?_eq_getElem hj₁, Option.getD_some] at hc
  rw [List.getD_eq_getElem?_getD, List.getElem?_eq_getElem hj₂, Option.getD_some] at hc
  exact hc

theorem shiftWords_zero (ws : List WordPlacement) :
    (ws.map fun w => (⟨w.word, w.clue, w.row - 0, w.col - 0, w.direction, w.score⟩ :
      WordPlacement)) = ws := by
  have : ∀ w ∈ ws, (⟨w.word, w.clue, w.row - 0, w.col - 0, w.direction, w.score⟩ :
      WordPlacement) = id w := by
    intro w _
    cases w
    simp
  rw [List.map_congr_left this, List.map_id]

theorem compactGrid_nil (ws : List WordPlacement) :
    compactGrid ([] : Grid) ws = some ⟨0, [], ws⟩ := by
  have h0 : compactGrid ([] : Grid) ws = some ⟨0, [],
      ws.map fun w => ⟨w.word, w.clue, w.row - 0, w.col - 0, w.direction, w.score⟩⟩ := rfl
  rw [h0, shiftWords_zero]

theorem compactGrid_none_of_empty {g : Grid} (ws : List WordPlacement)
    (hlen : 0 < g.length) (hx : ∀ r c, getCell g r c = none) :
    compactGrid g ws = none := by
  have hsb : scanBounds g = ⟨(g.length : Int), -1, (g.length : Int), -1⟩ :=
    foldl_boundsStep_id g _ _ fun p _ => hx p.1 p.2
  simp only [compactGrid]
  rw [hsb]
  simp only
  rw [if_neg (by omega)]

theorem compactGrid_idem {g : Grid} {n : Nat} {ws : List WordPlacement}
    {res : CompactResult} (hsq : SquareOfSize g n) (hres : compactGrid g ws = some res) :
    compactGrid res.grid res.words = some res := by
  by_cases hx : ∃ r c, getCell g r c ≠ none
  · obtain ⟨res', heq, hsize, hsqr, hcell, hwords⟩ := compactGrid_spec ws hsq hx
    rw [hres] at heq
    cases heq
    obtain ⟨hr0, hrr, hr1, hc0, hcc, hc1⟩ := scanBounds_range hsq hx
    obtain ⟨hpos, ⟨ca, hca⟩, ⟨rb, hrb⟩, _⟩ := compactGrid_borders hsq hx hres
    have hx₂ : ∃ r c, getCell res.grid r c ≠ none := ⟨0, ca, hca⟩
    obtain ⟨res₂, heq₂, hsize₂, hsqr₂, hcell₂, hwords₂⟩ :=
      compactGrid_spec res.words hsqr hx₂
    obtain ⟨h20, h2rr, h21, h2c0, h2cc, h2c1⟩ := scanBounds_range hsqr hx₂
    have hcont : ∀ r c : Int, getCell res.grid r c ≠ none →
        0 ≤ r ∧ r ≤ (scanBounds g).maxRow - (scanBounds g).minRow ∧
        0 ≤ c ∧ c ≤ (scanBounds g).maxCol - (scanBounds g).minCol := by
      intro r c hrc
      rw [hcell] at hrc
      by_cases hcond : 0 ≤ r ∧ r ≤ (scanBounds g).maxRow - (scanBounds g).minRow ∧
          0 ≤ c ∧ c ≤ (scanBounds g).maxCol - (scanBounds g).minCol
      · exact hcond
      · rw [if_neg hcond] at hrc
        exact absurd rfl hrc
    have hminR : (scanBounds res.grid).minRow = 0 :=
      le_antisymm (scanBounds_le hsqr hca).1 h20
    have hminC : (scanBounds res.grid).minCol = 0 :=
      le_antisymm (scanBounds_le hsqr hrb).2.2.1 h2c0
    obtain ⟨_, ⟨c2, hc2⟩, _, ⟨r4, hr4⟩⟩ := scanBounds_attained hsqr hx₂
    obtain ⟨_, ⟨c2g, hc2g⟩, _, ⟨r4g, hr4g⟩⟩ := scanBounds_attained hsq hx
    have hlast : getCell res.grid ((scanBounds g).maxRow - (scanBounds g).minRow)
        (c2g - (scanBounds g).minCol) ≠ none := by
      rw [hcell]
      have hle := scanBounds_le hsq hc2g
      rw [if_pos (by omega)]
      have e1 : (scanBounds g).minRow + ((scanBounds g).maxRow - (scanBounds g).minRow)
          = (scanBounds g).maxRow := by ring
      have e2 : (scanBounds g).minCol + (c2g - (scanBounds g).minCol) = c2g := by ring
      rw [e1, e2]
      exact hc2g
    have hlastc : getCell res.grid (r4g - (scanBounds g).minRow)
        ((scanBounds g).maxCol - (scanBounds g).minCol) ≠ none := by
      rw [hcell]
      have hle := scanBounds_le hsq hr4g
      rw [if_pos (by omega)]
      have e1 : (scanBounds g).minRow + (r4g - (scanBounds g).minRow) = r4g := by ring
      have e2 : (scanBounds g).minCol + ((scanBounds g).maxCol - (scanBounds g).minCol)
          = (scanBounds g).maxCol := by ring
      rw [e1, e2]
      exact hr4g
    have hmaxR : (scanBounds res.grid).maxRow =
        (scanBounds g).maxRow - (scanBounds g).minRow :=
      le_antisymm (hcont _ _ hc2).2.1 (scanBounds_le hsqr hlast).2.1
    have hmaxC : (scanBounds res.grid).maxCol =
        (scanBounds g).maxCol - (scanBounds g).minCol :=
      le_antisymm (hcont _ _ hr4).2.2.2 (scanBounds_le hsqr hlastc).2.2.2
    have hszeq : res₂.size = res.size := by
      rw [hminR, hminC, hmaxR, hmaxC] at hsize₂
      omega
    have hgrid : res₂.grid = res.grid := by
      refine @grid_eq_of_cells _ _ res.size (hszeq ▸ hsqr₂) hsqr ?_
      intro r c
      rw [hcell₂, hminR, hminC, hmaxR, hmaxC]
      by_cases hcond : 0 ≤ r ∧ r ≤ (scanBounds g).maxRow - (scanBounds g).minRow - 0 ∧
          0 ≤ c ∧ c ≤ (scanBounds g).maxCol - (scanBounds g).minCol - 0
      · rw [if_pos hcond]
        have e1 : (0 : Int) + r = r := by ring
        have e2 : (0 : Int) + c = c := by ring
        rw [e1, e2]
      · rw [if_neg hcond]
        by_cases hnn : getCell res.grid r c = none
        · rw [hnn]
        · exact absurd (by have := hcont r c hnn; omega) hcond
    have hwordsEq : res₂.words = res.words := by
      rw [hwords₂, hminR, hminC]
      exact shiftWords_zero res.words
    rw [heq₂]
    congr 1
    cases res₂
    cases res
    simp only [CompactResult.mk.injEq]
    exact ⟨hszeq, hgrid, hwordsEq⟩
  · push_neg at hx
    by_cases hlen : 0 < g.length
    · rw [compactGrid_none_of_empty ws hlen hx] at hres
      cases hres
    · have hgnil : g = [] := List.length_eq_zero.mp (by omega)
      subst hgnil
      rw [compactGrid_nil] at hres
      cases hres
      exact compactGrid_nil ws

/-!  Lemmas about clue numbering. -/

theorem keyLe_refl (a : Int × Int) : keyLe a a := by
  unfold keyLe
  rw [if_pos rfl]

instance : IsTotal (Int × Int) keyLe :=
  ⟨fun a b => by
    unfold keyLe
    by_cases h : a.1 = b.1
    · rw [if_pos h, if_pos h.symm]
      omega
    · rw [if_neg h, if_neg (Ne.symm h)]
      omega⟩

instance : IsTrans (Int × Int) keyLe :=
  ⟨fun a b c hab hbc => by
    unfold keyLe at hab hbc ⊢
    split_ifs at hab hbc ⊢ <;> omega⟩

theorem keyLe_antisymm {a b : Int × Int} (h1 : keyLe a b) (h2 : keyLe b a) : a = b := by
  unfold keyLe at h1 h2
  by_cases h : a.1 = b.1
  · rw [if_pos h] at h1
    rw [if_pos h.symm] at h2
    exact Prod.ext h (le_antisymm h1 h2)
  · rw [if_neg h] at h1
    rw [if_neg (Ne.symm h)] at h2
    exact absurd (le_antisymm h1 h2) h

/-- The sorted list of distinct start cells used by `assignClueNumbers`. -/
def sortedKeys (ws : List WordPlacement) : List (Int × Int) :=
  ((ws.map posKey).dedup).insertionSort keyLe

theorem assignClueNumbers_eq (ws : List WordPlacement) :
    assignClueNumbers ws = numberKeys ws 1 (sortedKeys ws) := rfl

theorem sortedKeys_nodup (ws : List WordPlacement) : (sortedKeys ws).Nodup :=
  (List.perm_insertionSort keyLe _).nodup_iff.mpr ((ws.map posKey).nodup_dedup)

theorem sortedKeys_sorted (ws : List WordPlacement) : (sortedKeys ws).Pairwise keyLe :=
  List.sorted_insertionSort keyLe _

theorem mem_sortedKeys {ws : List WordPlacement} {k : Int × Int} :
    k ∈ sortedKeys ws ↔ ∃ w ∈ ws, posKey w = k := by
  unfold sortedKeys
  rw [List.mem_insertionSort, List.mem_dedup, List.mem_map]

theorem sortedKeys_index_le {ws : List WordPlacement} {i j : Nat}
    (hi : i < (sortedKeys ws).length) (hj : j < (sortedKeys ws).length) :
    i ≤ j ↔ keyLe (sortedKeys ws)[i] (sortedKeys ws)[j] := by
  constructor
  · intro hij
    rcases Nat.eq_or_lt_of_le hij with heq | hlt
    · subst heq
      exact keyLe_refl _
    · exact List.pairwise_iff_getElem.mp (sortedKeys_sorted ws) i j hi hj hlt
  · intro hk
    by_contra hij
    push_neg at hij
    have h2 : keyLe (sortedKeys ws)[j] (sortedKeys ws)[i] :=
      List.pairwise_iff_getElem.mp (sortedKeys_sorted ws) j i hj hi hij
    have heq := keyLe_antisymm hk h2
    rw [(sortedKeys_nodup ws).getElem_inj_iff] at heq
    omega

theorem mem_numberKeys {ws : List WordPlacement} : ∀ {ks : List (Int × Int)} {m : Nat}
    {x : PlacedWord}, x ∈ numberKeys ws m ks ↔
      ∃ i, ∃ _ : i < ks.length, ∃ w, w ∈ ws ∧ posKey w = ks[i] ∧
        x = ⟨m + i, w.word, w.clue, w.word, w.row, w.col, w.direction⟩
  | [], m, x => by
    constructor
    · intro h
      exact absurd h (List.not_mem_nil x)
    · rintro ⟨i, hi, _⟩
      exact absurd hi (Nat.not_lt_zero i)
  | k :: ks, m, x => by
    unfold numberKeys
    rw [List.mem_append, List.mem_map]
    constructor
    · rintro (⟨w, hw, hx⟩ | hmem)
      · rw [List.mem_filter] at hw
        refine ⟨0, Nat.succ_pos _, w, hw.1, ?_, ?_⟩
        · simpa using (beq_iff_eq.mp hw.2)
        · rw [← hx]
          simp
      · obtain ⟨i, hi, w, hw, hkey, hx⟩ := mem_numberKeys.mp hmem
        refine ⟨i + 1, Nat.succ_lt_succ hi, w, hw, by simpa using hkey, ?_⟩
        rw [hx]
        have : m + 1 + i = m + (i + 1) := by omega
        rw [this]
    · rintro ⟨i, hi, w, hw, hkey, hx⟩
      match i, hi with
      | 0, _ =>
        refine Or.inl ⟨w, ?_, ?_⟩
        · rw [List.mem_filter]
          exact ⟨hw, beq_iff_eq.mpr (by simpa using hkey)⟩
        · rw [hx]
          simp
      | i + 1, hi =>
        refine Or.inr (mem_numberKeys.mpr ⟨i, Nat.lt_of_succ_lt_succ hi, w, hw,
          by simpa using hkey, ?_⟩)
        rw [hx]
        have : m + (i + 1) = m + 1 + i := by omega
        rw [this]

theorem sum_map_add_nat {α : Type} (l : List α) (f g : α → Nat) :
    (l.map fun a => f a + g a).sum = (l.map f).sum + (l.map g).sum := by
  induction l with
  | nil => rfl
  | cons a l ih =>
    simp only [List.map_cons, List.sum_cons, ih]
    omega

theorem sum_indicator_eq_one {a : Int × Int} : ∀ {ks : List (Int × Int)}, ks.Nodup →
    a ∈ ks → (ks.map fun k => if a = k then 1 else 0).sum = 1
  | [], _, h => absurd h (List.not_mem_nil a)
  | k :: ks, hnd, hmem => by
    rw [List.map_cons, List.sum_cons]
    by_cases heq : a = k
    · subst heq
      rw [if_pos rfl]
      have hnotin : a ∉ ks := (List.nodup_cons.mp hnd).1
      have hz : (ks.map fun k' => if a = k' then 1 else 0).sum = 0 := by
        rw [List.sum_eq_zero]
        intro x hx
        rw [List.mem_map] at hx
        obtain ⟨k', hk', hxk⟩ := hx
        rw [← hxk, if_neg fun hh => hnotin (by rw [hh]; exact hk')]
      rw [hz]
    · rw [if_neg heq]
      have hmem' : a ∈ ks := by
        rcases List.mem_cons.mp hmem with h | h
        · exact absurd h heq
        · exact h
      rw [sum_indicator_eq_one (List.nodup_cons.mp hnd).2 hmem']

theorem numberKeys_length {ws : List WordPlacement} : ∀ (ks : List (Int × Int)) (m : Nat),
    (numberKeys ws m ks).length =
      (ks.map fun k => (ws.filter fun w => posKey w == k).length).sum
  | [], _ => rfl
  | k :: ks, m => by
    unfold numberKeys
    rw [List.length_append, List.length_map, List.map_cons, List.sum_cons,
      numberKeys_length ks (m + 1)]

theorem sum_filter_lengths {ks : List (Int × Int)} (hnd : ks.Nodup) :
    ∀ ws : List WordPlacement, (∀ w ∈ ws, posKey w ∈ ks) →
      (ks.map fun k => (ws.filter fun w => posKey w == k).length).sum = ws.length
  | [], _ => by
    rw [List.sum_eq_zero]
    · rfl
    · intro x hx
      rw [List.mem_map] at hx
      obtain ⟨k, _, hk⟩ := hx
      simp [← hk]
  | w :: ws, h => by
    have ih := sum_filter_lengths hnd ws fun w' hw' => h w' (List.mem_cons_of_mem _ hw')
    have hsplit : ∀ k : Int × Int, ((w :: ws).filter fun w' => posKey w' == k).length =
        (if posKey w = k then 1 else 0) + (ws.filter fun w' => posKey w' == k).length := by
      intro k
      rw [List.filter_cons]
      by_cases hk : posKey w = k
      · rw [if_pos (beq_iff_eq.mpr hk), if_pos hk, List.length_cons]
        omega
      · rw [if_neg (by simpa using hk), if_neg hk]
        omega
    rw [List.map_congr_left fun k _ => hsplit k, sum_map_add_nat,
      sum_indicator_eq_one hnd (h w (List.mem_cons_self _ _)), ih, List.length_cons]
    omega

theorem assignClueNumbers_length (ws : List WordPlacement) :
    (assignClueNumbers ws).length = ws.length := by
  rw [assignClueNumbers_eq, numberKeys_length]
  exact sum_filter_lengths (sortedKeys_nodup ws) ws fun w hw =>
    mem_sortedKeys.mpr ⟨w, hw, rfl⟩

/-!  Structural lemmas about `generateCrossword`. -/

theorem squareOfSize_replicate (n : Nat) :
    SquareOfSize (List.replicate n (List.replicate n (none : Cell))) n := by
  refine ⟨List.length_replicate n _, ?_⟩
  intro row hrow
  rw [List.eq_of_mem_replicate hrow]
  exact List.length_replicate n _

theorem getCell_replicate (n : Nat) (r c : Int) :
    getCell (List.replicate n (List.replicate n (none : Cell))) r c = none := by
  unfold getCell
  split
  · have houter : (List.replicate n (List.replicate n (none : Cell))).getD r.toNat [] =
        if r.toNat < n then List.replicate n none else [] := by
      rw [List.getD_eq_getElem?_getD, List.getElem?_replicate]
      split <;> rfl
    rw [houter]
    split
    · rw [List.getD_eq_getElem?_getD, List.getElem?_replicate]
      split <;> rfl
    · rfl
  · rfl

theorem mem_normalizeWords_valid {ws : List WordInput} {w : WordInput}
    (h : w ∈ normalizeWords ws) : 2 ≤ w.word.length ∧ w.word.all isAZ = true := by
  unfold normalizeWords at h
  rw [List.mem_filter] at h
  have := h.2
  rw [Bool.and_eq_true, decide_eq_true_eq] at this
  exact this

theorem compactGrid_words_length {g : Grid} {ws : List WordPlacement}
    {res : CompactResult} (h : compactGrid g ws = some res) :
    res.words.length = ws.length := by
  simp only [compactGrid] at h
  split at h
  · cases h
    exact List.length_map _ _
  · cases h

/-- The anchor placement record built by `generateCrossword` for the first
sorted word. -/
def anchorOf (firstWord : WordInput) : WordPlacement :=
  ⟨firstWord.word, firstWord.clue,
    ((max 30 (firstWord.word.length * 3) / 2 : Nat) : Int),
    (((max 30 (firstWord.word.length * 3) - firstWord.word.length) / 2 : Nat) : Int),
    .across, 0⟩

/-- The working grid of `generateCrossword` after the anchor is placed. -/
def anchorGrid (firstWord : WordInput) : Grid :=
  placeWord
    (List.replicate (max 30 (firstWord.word.length * 3))
      (List.replicate (max 30 (firstWord.word.length * 3)) none))
    firstWord.word
    ((max 30 (firstWord.word.length * 3) / 2 : Nat) : Int)
    (((max 30 (firstWord.word.length * 3) - firstWord.word.length) / 2 : Nat) : Int)
    .across

theorem generateCrossword_success {ws : List WordInput} {opts : GenOptions}
    {p : PuzzleGrid} (h : generateCrossword ws opts = some p) :
    ∃ firstWord restWords c,
      (normalizeWords ws).insertionSort lenGe = firstWord :: restWords ∧
      min 3 (restWords.length + 1) ≤
        (placeAll opts.maxAttempts opts.minIntersections restWords
          (anchorGrid firstWord) [anchorOf firstWord]).2.length ∧
      compactGrid
        (placeAll opts.maxAttempts opts.minIntersections restWords
          (anchorGrid firstWord) [anchorOf firstWord]).1
        (placeAll opts.maxAttempts opts.minIntersections restWords
          (anchorGrid firstWord) [anchorOf firstWord]).2 = some c ∧
      p = ⟨c.size, assignClueNumbers c.words, c.grid⟩ := by
  simp only [generateCrossword] at h
  split at h
  · cases h
  split at h
  · cases h
  split at h
  · cases h
  next firstWord restWords heq =>
    refine ⟨firstWord, restWords, ?_⟩
    rw [heq] at h
    simp only [List.length_cons] at h
    split at h
    · cases h
    next hlen =>
      split at h
      · cases h
      next c hc =>
        rw [Option.some.injEq] at h
        refine ⟨c, heq, ?_, ?_, h.symm⟩
        · simp only [anchorGrid, anchorOf]
          omega
        · simp only [anchorGrid, anchorOf]
          exact hc

theorem anchor_bounds (fw : WordInput) :
    spanInBounds (max 30 (fw.word.length * 3))
      ((max 30 (fw.word.length * 3) / 2 : Nat) : Int)
      (((max 30 (fw.word.length * 3) - fw.word.length) / 2 : Nat) : Int)
      .across fw.word.length := by
  unfold spanInBounds
  simp only
  refine ⟨by omega, by omega, by omega, by omega⟩

theorem anchor_inv (fw : WordInput) :
    SquareOfSize (anchorGrid fw) (max 30 (fw.word.length * 3)) ∧
    GridInv (anchorGrid fw) [anchorOf fw] := by
  have hsq0 := squareOfSize_replicate (max 30 (fw.word.length * 3))
  have hbnd := anchor_bounds fw
  refine ⟨squareOfSize_placeWord _ hsq0 _ _ _, ?_, ?_⟩
  · intro w' hw'
    have hw : w' = anchorOf fw := by simpa using hw'
    subst hw
    intro i hi
    simp only [anchorOf] at hi ⊢
    exact getCell_placeWord_span fw.word _ _ _ .across hsq0 hbnd i hi
  · intro r c hne
    by_cases hon : ∃ i, i < fw.word.length ∧
        spanCell ((max 30 (fw.word.length * 3) / 2 : Nat) : Int)
          (((max 30 (fw.word.length * 3) - fw.word.length) / 2 : Nat) : Int) .across i = (r, c)
    · obtain ⟨i, hi, hsp⟩ := hon
      exact ⟨anchorOf fw, List.mem_singleton_self _, i, hi, hsp⟩
    · push_neg at hon
      exfalso
      apply hne
      simp only [anchorGrid]
      rw [getCell_placeWord_off fw.word _ _ _ .across r c hon]
      exact getCell_replicate _ r c

theorem assignClueNumbers_mem {ws : List WordPlacement} {x : PlacedWord}
    (h : x ∈ assignClueNumbers ws) :
    ∃ w ∈ ws, x.word = w.word ∧ x.clue = w.clue ∧ x.answer = w.word ∧
      x.startRow = w.row ∧ x.startCol = w.col ∧ x.direction = w.direction := by
  rw [assignClueNumbers_eq] at h
  obtain ⟨i, hi, w, hw, _, hx⟩ := mem_numberKeys.mp h
  subst hx
  exact ⟨w, hw, rfl, rfl, rfl, rfl, rfl, rfl⟩

theorem assignClueNumbers_mem_of {ws : List WordPlacement} {w : WordPlacement}
    (hw : w ∈ ws) :
    ∃ x ∈ assignClueNumbers ws, x.word = w.word ∧ x.answer = w.word ∧
      x.startRow = w.row ∧ x.startCol = w.col ∧ x.direction = w.direction := by
  have hk : posKey w ∈ sortedKeys ws := mem_sortedKeys.mpr ⟨w, hw, rfl⟩
  obtain ⟨i, hi, hkey⟩ := List.getElem_of_mem hk
  refine ⟨⟨1 + i, w.word, w.clue, w.word, w.row, w.col, w.direction⟩, ?_,
    rfl, rfl, rfl, rfl, rfl⟩
  rw [assignClueNumbers_eq]
  exact mem_numberKeys.mpr ⟨i, hi, w, hw, hkey.symm, rfl⟩

/-!  Concrete inputs and outputs used by witnesses and counterexamples. -/

/-- A single valid word. -/
def singleWordInput : List WordInput := [⟨['A', 'B', 'C'], ['x']⟩]

/-- The output of the generator on `singleWordInput`: the grid is padded to a
3 × 3 square whose bottom two rows are fully empty. -/
def singleWordPuzzle : PuzzleGrid :=
  ⟨3, [⟨1, ['A', 'B', 'C'], ['x'], ['A', 'B', 'C'], 0, 0, .across⟩],
   [[some 'A', some 'B', some 'C'], [none, none, none], [none, none, none]]⟩

/-- Three valid words, no two of which share a letter. -/
def disjointInput : List WordInput :=
  [⟨['B', 'C', 'D'], []⟩, ⟨['F', 'G', 'H'], []⟩, ⟨['J', 'K', 'L'], []⟩]

/-- Three words with rich letter overlap. -/
def catInput : List WordInput :=
  [⟨['C', 'A', 'T'], []⟩, ⟨['C', 'A', 'R'], []⟩, ⟨['T', 'A', 'R'], []⟩]

/-- The output of the generator on `catInput`. -/
def catPuzzle : PuzzleGrid :=
  ⟨3, [⟨1, ['C', 'A', 'T'], [], ['C', 'A', 'T'], 0, 0, .across⟩,
      ⟨1, ['C', 'A', 'R'], [], ['C', 'A', 'R'], 0, 0, .down⟩,
      ⟨2, ['T', 'A', 'R'], [], ['T', 'A', 'R'], 0, 2, .down⟩],
   [[some 'C', some 'A', some 'T'], [some 'A', none, some 'A'],
    [some 'R', none, some 'R']]⟩

/-- Row `r` of the output grid is fully empty (all cells `none`). -/
def rowEmpty (p : PuzzleGrid) (r : Int) : Prop :=
  ∀ c < p.size, getCell p.grid r (c : Int) = none

/-- Column `c` of the output grid is fully empty (all cells `none`). -/
def colEmpty (p : PuzzleGrid) (c : Int) : Prop :=
  ∀ r < p.size, getCell p.grid (r : Int) c = none

instance (p : PuzzleGrid) (r : Int) : Decidable (rowEmpty p r) := by
  unfold rowEmpty
  exact Nat.decidableBallLT _ _

instance (p : PuzzleGrid) (c : Int) : Decidable (colEmpty p c) := by
  unfold colEmpty
  exact Nat.decidableBallLT _ _

/-- The border property claimed by the spec: no fully empty border row and no
fully empty border column. -/
def noEmptyBorderLines (p : PuzzleGrid) : Prop :=
  ¬rowEmpty p 0 ∧ ¬rowEmpty p ((p.size : Int) - 1) ∧
  ¬colEmpty p 0 ∧ ¬colEmpty p ((p.size : Int) - 1)

instance (p : PuzzleGrid) : Decidable (noEmptyBorderLines p) := by
  unfold noEmptyBorderLines
  infer_instance

/-!  The claims. -/

/-- C2: for every successful output, the grid is a `size` × `size` square,
every cell in the span of every placed word holds exactly the corresponding
letter of that word's answer, and every non-null grid cell lies in the span of
at least one placed word. -/
theorem claim_C2_output_invariants (ws : List WordInput) (opts : GenOptions)
    (p : PuzzleGrid) (h : generateCrossword ws opts = some p) :
    (p.grid.length = p.size ∧ ∀ row ∈ p.grid, row.length = p.size) ∧
    (∀ w ∈ p.words, ∀ i, i < w.answer.length →
      getCell p.grid (spanCell w.startRow w.startCol w.direction i).1
        (spanCell w.startRow w.startCol w.direction i).2 = some (charAt w.answer i)) ∧
    (∀ r c, getCell p.grid r c ≠ none →
      ∃ w ∈ p.words, ∃ i, i < w.answer.length ∧
        spanCell w.startRow w.startCol w.direction i = (r, c)) := by
  obtain ⟨fw, rest, cres, heq, hmin, hcomp, hp⟩ := generateCrossword_success h
  obtain ⟨hsq1, hinv1⟩ := anchor_inv fw
  obtain ⟨hsqF, hinvF⟩ := placeAll_spec rest (anchorGrid fw) [anchorOf fw]
    opts.maxAttempts opts.minIntersections hsq1 hinv1
  have hfwmem : fw ∈ normalizeWords ws := by
    have hmem : fw ∈ (normalizeWords ws).insertionSort lenGe := by
      rw [heq]
      exact List.mem_cons_self _ _
    rwa [List.mem_insertionSort] at hmem
  have hfwlen := (mem_normalizeWords_valid hfwmem).1
  have hanchor : anchorOf fw ∈ (placeAll opts.maxAttempts opts.minIntersections rest
      (anchorGrid fw) [anchorOf fw]).2 := by
    obtain ⟨extra, hex⟩ := placeAll_suffix rest (anchorGrid fw) [anchorOf fw]
      opts.maxAttempts opts.minIntersections
    rw [hex]
    exact List.mem_append_left _ (List.mem_singleton_self _)
  have hspan := hinvF.1 _ hanchor
  have hx : ∃ r c, getCell (placeAll opts.maxAttempts opts.minIntersections rest
      (anchorGrid fw) [anchorOf fw]).1 r c ≠ none := by
    have h0 := hspan 0 (by simp only [anchorOf]; omega)
    exact ⟨_, _, by rw [h0]; exact Option.some_ne_none _⟩
  have hsp2 := compactGrid_spanMatches hsqF hx hcomp hinvF.1
  have hcov2 := compactGrid_covered hsqF hx hcomp hinvF.2
  have hsqC : SquareOfSize cres.grid cres.size := by
    obtain ⟨res', heq', _, hsqC, _, _⟩ := compactGrid_spec _ hsqF hx
    rw [hcomp] at heq'
    cases heq'
    exact hsqC
  subst hp
  refine ⟨⟨hsqC.1, hsqC.2⟩, ?_, ?_⟩
  · intro w' hw' i hi
    obtain ⟨w, hw, _, _, hans, hrow, hcol, hdir⟩ := assignClueNumbers_mem hw'
    rw [hans] at hi
    rw [hans, hrow, hcol, hdir]
    exact hsp2 w hw i hi
  · intro r c hne
    obtain ⟨w, hw, i, hi, hsp⟩ := hcov2 r c hne
    obtain ⟨x, hx', _, hxa, hxr, hxc, hxd⟩ := assignClueNumbers_mem_of hw
    refine ⟨x, hx', i, ?_, ?_⟩
    · rw [hxa]
      exact hi
    · rw [hxr, hxc, hxd]
      exact hsp

set_option maxRecDepth 10000 in
/-- Witness for C2 at a concrete successful generation. -/
theorem claim_C2_witness :
    generateCrossword catInput defaultOptions = some catPuzzle ∧
    ((catPuzzle.grid.length = catPuzzle.size ∧
        ∀ row ∈ catPuzzle.grid, row.length = catPuzzle.size) ∧
      (∀ w ∈ catPuzzle.words, ∀ i, i < w.answer.length →
        getCell catPuzzle.grid (spanCell w.startRow w.startCol w.direction i).1
          (spanCell w.startRow w.startCol w.direction i).2 = some (charAt w.answer i)) ∧
      (∀ r c, getCell catPuzzle.grid r c ≠ none →
        ∃ w ∈ catPuzzle.words, ∃ i, i < w.answer.length ∧
          spanCell w.startRow w.startCol w.direction i = (r, c))) :=
  ⟨by decide, claim_C2_output_invariants catInput defaultOptions catPuzzle (by decide)⟩

set_option maxRecDepth 10000 in
/-- Counterexample to C3 as stated: a single valid word generates successfully
into a 3 × 3 square whose bottom two rows are fully empty, so the output has a
fully empty border row. -/
theorem claim_C3_counterexample :
    generateCrossword singleWordInput defaultOptions = some singleWordPuzzle ∧
    ¬noEmptyBorderLines singleWordPuzzle := by
  constructor
  · decide
  · decide

/-- C3 amended: for every successful output, the first row and the first
column are not fully empty, and the last row or the last column is not fully
empty; fully empty trailing border lines can remain on the shorter axis
because the grid is padded to a square. -/
theorem claim_C3_amended (ws : List WordInput) (opts : GenOptions) (p : PuzzleGrid)
    (h : generateCrossword ws opts = some p) :
    0 < p.size ∧ ¬rowEmpty p 0 ∧ ¬colEmpty p 0 ∧
      (¬rowEmpty p ((p.size : Int) - 1) ∨ ¬colEmpty p ((p.size : Int) - 1)) := by
  obtain ⟨fw, rest, cres, heq, hmin, hcomp, hp⟩ := generateCrossword_success h
  obtain ⟨hsq1, hinv1⟩ := anchor_inv fw
  obtain ⟨hsqF, hinvF⟩ := placeAll_spec rest (anchorGrid fw) [anchorOf fw]
    opts.maxAttempts opts.minIntersections hsq1 hinv1
  have hfwmem : fw ∈ normalizeWords ws := by
    have hmem : fw ∈ (normalizeWords ws).insertionSort lenGe := by
      rw [heq]
      exact List.mem_cons_self _ _
    rwa [List.mem_insertionSort] at hmem
  have hfwlen := (mem_normalizeWords_valid hfwmem).1
  have hanchor : anchorOf fw ∈ (placeAll opts.maxAttempts opts.minIntersections rest
      (anchorGrid fw) [anchorOf fw]).2 := by
    obtain ⟨extra, hex⟩ := placeAll_suffix rest (anchorGrid fw) [anchorOf fw]
      opts.maxAttempts opts.minIntersections
    rw [hex]
    exact List.mem_append_left _ (List.mem_singleton_self _)
  have hspan := hinvF.1 _ hanchor
  have hx : ∃ r c, getCell (placeAll opts.maxAttempts opts.minIntersections rest
      (anchorGrid fw) [anchorOf fw]).1 r c ≠ none := by
    have h0 := hspan 0 (by simp only [anchorOf]; omega)
    exact ⟨_, _, by rw [h0]; exact Option.some_ne_none _⟩
  obtain ⟨hpos, ⟨ca, hca⟩, ⟨rb, hrb⟩, hlastline⟩ := compactGrid_borders hsqF hx hcomp
  have hsqC : SquareOfSize cres.grid cres.size := by
    obtain ⟨res', heq', _, hsqC, _, _⟩ := compactGrid_spec _ hsqF hx
    rw [hcomp] at heq'
    cases heq'
    exact hsqC
  subst hp
  refine ⟨hpos, ?_, ?_, ?_⟩
  · intro hrow
    unfold rowEmpty at hrow
    obtain ⟨_, _, hcb0, hcb1⟩ := getCell_bounds hsqC hca
    have hz := hrow ca.toNat (by simp only; omega)
    rw [Int.toNat_of_nonneg hcb0] at hz
    exact hca hz
  · intro hcol
    unfold colEmpty at hcol
    obtain ⟨hcb0, hcb1, _, _⟩ := getCell_bounds hsqC hrb
    have hz := hcol rb.toNat (by simp only; omega)
    rw [Int.toNat_of_nonneg hcb0] at hz
    exact hrb hz
  · rcases hlastline with ⟨cl, hcl⟩ | ⟨rl, hrl⟩
    · refine Or.inl fun hrow => ?_
      unfold rowEmpty at hrow
      obtain ⟨_, _, hcb0, hcb1⟩ := getCell_bounds hsqC hcl
      have hz := hrow cl.toNat (by simp only; omega)
      rw [Int.toNat_of_nonneg hcb0] at hz
      exact hcl hz
    · refine Or.inr fun hcol => ?_
      unfold colEmpty at hcol
      obtain ⟨hcb0, hcb1, _, _⟩ := getCell_bounds hsqC hrl
      have hz := hcol rl.toNat (by simp only; omega)
      rw [Int.toNat_of_nonneg hcb0] at hz
      exact hrl hz

set_option maxRecDepth 10000 in
/-- Witness for the amended C3 at a concrete successful generation. -/
theorem claim_C3_amended_witness :
    generateCrossword singleWordInput defaultOptions = some singleWordPuzzle ∧
    (0 < singleWordPuzzle.size ∧ ¬rowEmpty singleWordPuzzle 0 ∧
      ¬colEmpty singleWordPuzzle 0 ∧
      (¬rowEmpty singleWordPuzzle ((singleWordPuzzle.size : Int) - 1) ∨
        ¬colEmpty singleWordPuzzle ((singleWordPuzzle.size : Int) - 1))) :=
  ⟨by decide, claim_C3_amended singleWordInput defaultOptions singleWordPuzzle (by decide)⟩

/-- C9: generation is deterministic; two runs on the same input and
configuration return the same result. -/
theorem claim_C9_deterministic (ws : List WordInput) (opts : GenOptions)
    (r₁ r₂ : Option PuzzleGrid) (h₁ : generateCrossword ws opts = r₁)
    (h₂ : generateCrossword ws opts = r₂) : r₁ = r₂ := by
  rw [← h₁, ← h₂]

set_option maxRecDepth 10000 in
/-- Witness for C9: two concrete runs on the same input agree. -/
theorem claim_C9_witness :
    generateCrossword catInput defaultOptions = some catPuzzle ∧
    (some catPuzzle : Option PuzzleGrid) = some catPuzzle :=
  ⟨by decide, claim_C9_deterministic catInput defaultOptions
    (some catPuzzle) (some catPuzzle) (by decide) (by decide)⟩

/-!  C4: the scoring formula. -/

instance (n : Nat) (row col : Int) (dir : Direction) (len : Nat) :
    Decidable (spanInBounds n row col dir len) := by
  unfold spanInBounds
  cases dir <;> infer_instance

/-- Number of span cells whose grid cell already holds the word's letter. -/
def matchCount (g : Grid) (w : List Char) (row col : Int) (dir : Direction) : Nat :=
  (List.range w.length).countP fun i =>
    decide (getCell g (spanCell row col dir i).1 (spanCell row col dir i).2
      = some (charAt w i))

/-- The placement score exactly as the specification words it: 10 per
already-matching cell, +5 when the average Manhattan distance to the placed
words' start cells is below 5, a further +5 when it is below 3, and -5 when
the word is longer than 6 letters and the sum so far is below 10. -/
def specScore (g : Grid) (w : List Char) (row col : Int) (dir : Direction)
    (pws : List WordPlacement) : Int :=
  let base : Int := 10 * (matchCount g w row col dir : Int)
  let bonus : Int := (if calculateAverageDistance row col pws < 5 then 5 else 0) +
    (if calculateAverageDistance row col pws < 3 then 5 else 0)
  (base + bonus) - (if 6 < w.length ∧ base + bonus < 10 then 5 else 0)

theorem foldl_add_ten {l : List Nat} {P : Nat → Prop} [DecidablePred P] (a : Int) :
    l.foldl (fun s i => if P i then s + 10 else s) a =
      a + 10 * ((l.countP fun i => decide (P i) : Nat) : Int) := by
  induction l generalizing a with
  | nil => simp
  | cons x l ih =>
    rw [List.foldl_cons]
    by_cases h : P x
    · rw [if_pos h, ih, List.countP_cons_of_pos _ _ (by simpa using h)]
      push_cast
      ring
    · rw [if_neg h, ih, List.countP_cons_of_neg _ _ (by simpa using h)]

/-- C4: for every grid, word, in-bounds position and direction, and every
list of placed words, the placement score equals the formula of the
specification. -/
theorem claim_C4_score_formula (g : Grid) (w : List Char) (row col : Int)
    (dir : Direction) (pws : List WordPlacement)
    (hb : spanInBounds g.length row col dir w.length) :
    scorePlacement g w row col dir pws = specScore g w row col dir pws := by
  unfold scorePlacement specScore matchCount
  rw [foldl_add_ten]
  simp only [Int.zero_add]
  split_ifs <;> omega

theorem claim_C4_witness :
    spanInBounds ([[some 'A', none], [none, none]] : Grid).length 0 0 .across
        ['A', 'B'].length ∧
      scorePlacement [[some 'A', none], [none, none]] ['A', 'B'] 0 0 .across
          [⟨['X', 'Y'], [], 1, 1, .down, 0⟩] =
        specScore [[some 'A', none], [none, none]] ['A', 'B'] 0 0 .across
          [⟨['X', 'Y'], [], 1, 1, .down, 0⟩] :=
  ⟨by decide, claim_C4_score_formula [[some 'A', none], [none, none]] ['A', 'B'] 0 0
    .across [⟨['X', 'Y'], [], 1, 1, .down, 0⟩] (by decide)⟩

/-!  C6: the normalizer. -/

theorem char_toNat_ofNat_lt {m : Nat} (h : m < 55296) : (Char.ofNat m).toNat = m := by
  unfold Char.ofNat
  rw [dif_pos (Or.inl h)]
  rfl

theorem isWhitespace_false_of_ge {c : Char} (h : 65 ≤ c.toNat) :
    c.isWhitespace = false := by
  unfold Char.isWhitespace
  have h1 : c ≠ ' ' := fun he => by rw [he] at h; exact absurd h (by decide)
  have h2 : c ≠ '\t' := fun he => by rw [he] at h; exact absurd h (by decide)
  have h3 : c ≠ '\r' := fun he => by rw [he] at h; exact absurd h (by decide)
  have h4 : c ≠ '\n' := fun he => by rw [he] at h; exact absurd h (by decide)
  simp [h1, h2, h3, h4]

theorem isWhitespace_toUpper (c : Char) :
    (Char.toUpper c).isWhitespace = c.isWhitespace := by
  simp only [Char.toUpper]
  split
  next h =>
    have hup : 65 ≤ (Char.ofNat (Char.toNat c - 32)).toNat := by
      rw [char_toNat_ofNat_lt (by omega)]
      omega
    rw [isWhitespace_false_of_ge hup, isWhitespace_false_of_ge (by omega)]
  next => rfl

theorem trimChars_map_toUpper (s : List Char) :
    trimChars (s.map Char.toUpper) = (trimChars s).map Char.toUpper := by
  have hpred : Char.isWhitespace ∘ Char.toUpper = Char.isWhitespace :=
    funext fun c => isWhitespace_toUpper c
  unfold trimChars
  rw [List.dropWhile_map, hpred, ← List.map_reverse, List.dropWhile_map, hpred,
    ← List.map_reverse]

/-- Normalization exactly as the specification words it: trim the word of
surrounding whitespace and uppercase it, trim the clue, and keep in original
order exactly the entries whose normalized word has length at least 2 and
consists only of characters in `A`..`Z`. -/
def specNormalize (ws : List WordInput) : List WordInput :=
  (ws.map fun w => ⟨(trimChars w.word).map Char.toUpper, trimChars w.clue⟩).filter
    fun w => decide (2 ≤ w.word.length ∧ ∀ ch ∈ w.word, 'A' ≤ ch ∧ ch ≤ 'Z')

/-- C6: the normalized list is exactly the specification's normalization (a
pure filter of a pure map — rejected entries are silently dropped, clues are
only trimmed, and order is preserved: the result is a sublist of the mapped
input). -/
theorem claim_C6_normalizer (ws : List WordInput) :
    normalizeWords ws = specNormalize ws ∧
    (normalizeWords ws).Sublist
      (ws.map fun w => ⟨trimChars (w.word.map Char.toUpper), trimChars w.clue⟩) := by
  constructor
  · unfold normalizeWords specNormalize
    have hmap : (ws.map fun w =>
        (⟨trimChars (w.word.map Char.toUpper), trimChars w.clue⟩ : WordInput)) =
        ws.map fun w => ⟨(trimChars w.word).map Char.toUpper, trimChars w.clue⟩ := by
      apply List.map_congr_left
      intro w _
      rw [trimChars_map_toUpper]
    rw [hmap]
    apply List.filter_congr
    intro w _
    rw [Bool.eq_iff_iff]
    unfold isAZ
    simp only [Bool.and_eq_true, decide_eq_true_eq, List.all_eq_true]
  · exact List.filter_sublist _

/-!  Helpers for the success and failure scenarios of C1 and C5. -/

/-- Two words share no letter at all. -/
def noSharedLetter (w₁ w₂ : List Char) : Prop := ∀ ch ∈ w₁, ch ∉ w₂

instance (w₁ w₂ : List Char) : Decidable (noSharedLetter w₁ w₂) := by
  unfold noSharedLetter
  infer_instance

theorem noSharedLetter_symm {w₁ w₂ : List Char} (h : noSharedLetter w₁ w₂) :
    noSharedLetter w₂ w₁ := fun ch h₂ h₁ => h ch h₁ h₂

theorem assignClueNumbers_singleton (x : WordPlacement) :
    assignClueNumbers [x] =
      [⟨1, x.word, x.clue, x.word, x.row, x.col, x.direction⟩] := by
  rw [assignClueNumbers_eq]
  have hkeys : sortedKeys [x] = [posKey x] := by
    unfold sortedKeys
    simp [List.insertionSort]
  rw [hkeys]
  unfold numberKeys
  simp [numberKeys]

theorem generateCrossword_not_empty {ws : List WordInput}
    (h : normalizeWords ws ≠ []) : ws.isEmpty = false := by
  cases ws
  · exact absurd rfl h
  · rfl

theorem generateCrossword_single {ws : List WordInput} {w : WordInput}
    (hnorm : normalizeWords ws = [w]) (opts : GenOptions) :
    ∃ c : CompactResult, compactGrid (anchorGrid w) [anchorOf w] = some c ∧
      c.words = [⟨w.word, w.clue, (anchorOf w).row - (scanBounds (anchorGrid w)).minRow,
        (anchorOf w).col - (scanBounds (anchorGrid w)).minCol, .across, 0⟩] ∧
      generateCrossword ws opts = some ⟨c.size, assignClueNumbers c.words, c.grid⟩ := by
  have hwmem : w ∈ normalizeWords ws := by
    rw [hnorm]
    exact List.mem_singleton_self w
  have hwvalid := (mem_normalizeWords_valid hwmem).1
  obtain ⟨hsq1, hinv1⟩ := anchor_inv w
  have hspan := hinv1.1 (anchorOf w) (List.mem_singleton_self _)
  have hx : ∃ r c, getCell (anchorGrid w) r c ≠ none := by
    have h0 := hspan 0 (by simp only [anchorOf]; omega)
    exact ⟨_, _, by rw [h0]; exact Option.some_ne_none _⟩
  obtain ⟨c, hc, _, _, _, hcwords⟩ := compactGrid_spec [anchorOf w] hsq1 hx
  refine ⟨c, hc, ?_, ?_⟩
  · rw [hcwords]
    rfl
  · have hempty : ws.isEmpty = false :=
      generateCrossword_not_empty (by rw [hnorm]; exact List.cons_ne_nil w [])
    have hsort1 : List.insertionSort lenGe [w] = [w] := by simp [List.insertionSort]
    have hplace : placeAll opts.maxAttempts opts.minIntersections []
        (anchorGrid w) [anchorOf w] = (anchorGrid w, [anchorOf w]) := rfl
    simp only [generateCrossword, hempty, hnorm, hsort1, Bool.false_eq_true, if_false]
    simp only [anchorGrid, anchorOf] at hplace hc
    rw [hplace, hc]
    split
    next hlt => simp at hlt
    next => rfl

theorem generateCrossword_disjoint3 {ws : List WordInput} {u v x : WordInput}
    (hnorm : normalizeWords ws = [u, v, x])
    (huv : noSharedLetter u.word v.word) (hux : noSharedLetter u.word x.word)
    (hvx : noSharedLetter v.word x.word) (opts : GenOptions) :
    generateCrossword ws opts = none := by
  have hempty : ws.isEmpty = false :=
    generateCrossword_not_empty (by rw [hnorm]; exact List.cons_ne_nil u [v, x])
  have hlen3 : ((normalizeWords ws).insertionSort lenGe).length = 3 := by
    rw [List.length_insertionSort, hnorm]
    rfl
  obtain ⟨a, b, c', hsort⟩ := List.length_eq_three.mp hlen3
  have hperm : List.Perm ((normalizeWords ws).insertionSort lenGe) [u, v, x] := by
    rw [← hnorm]
    exact List.perm_insertionSort lenGe _
  have hpw : List.Pairwise
      (fun p q => noSharedLetter p.word q.word ∧ noSharedLetter q.word p.word)
      ((normalizeWords ws).insertionSort lenGe) := by
    refine (List.Perm.pairwise_iff ?_ hperm).mpr ?_
    · intro p q hpq
      exact ⟨hpq.2, hpq.1⟩
    · refine List.pairwise_iff_forall_sublist.mpr ?_
      intro p q hsub
      have : (p = u ∧ (q = v ∨ q = x)) ∨ (p = v ∧ q = x) := by
        rcases List.sublist_cons_iff.mp hsub with h | ⟨l', hl', hsub'⟩
        · rcases List.sublist_cons_iff.mp h with h2 | ⟨l2, hl2, hsub2⟩
          · have hlen := h2.length_le
            simp at hlen
          · cases hl2
            rcases List.sublist_cons_iff.mp hsub2 with h3 | ⟨l3, hl3, _⟩
            · have hlen := h3.length_le
              simp at hlen
            · cases hl3
              exact Or.inr ⟨rfl, rfl⟩
        · cases hl'
          rcases List.sublist_cons_iff.mp hsub' with h2 | ⟨l2, hl2, _⟩
          · rcases List.sublist_cons_iff.mp h2 with h3 | ⟨l3, hl3, _⟩
            · have hlen := h3.length_le
              simp at hlen
            · cases hl3
              exact Or.inl ⟨rfl, Or.inr rfl⟩
          · cases hl2
            exact Or.inl ⟨rfl, Or.inl rfl⟩
      rcases this with ⟨hp, hq | hq⟩ | ⟨hp, hq⟩
      · subst hp; subst hq
        exact ⟨huv, noSharedLetter_symm huv⟩
      · subst hp; subst hq
        exact ⟨hux, noSharedLetter_symm hux⟩
      · subst hp; subst hq
        exact ⟨hvx, noSharedLetter_symm hvx⟩
  rw [hsort] at hpw
  have hab : noSharedLetter b.word a.word := (List.pairwise_cons.mp hpw).1 b
    (List.mem_cons_self b [c']) |>.2
  have hac : noSharedLetter c'.word a.word := (List.pairwise_cons.mp hpw).1 c'
    (List.mem_cons_of_mem b (List.mem_singleton_self c')) |>.2
  have hdisj : ∀ cur ∈ [b, c'], ∀ pw ∈ [anchorOf a], ∀ ch ∈ cur.word, ch ∉ pw.word := by
    intro cur hcur pw hpw' ch hch
    have hpwa : pw = anchorOf a := by simpa using hpw'
    subst hpwa
    rcases List.mem_cons.mp hcur with h | h
    · subst h
      exact hab ch hch
    · have : cur = c' := by simpa using h
      subst this
      exact hac ch hch
  simp only [generateCrossword, hempty, Bool.false_eq_true, if_false]
  rw [if_neg (by rw [hnorm]; simp)]
  simp only [hsort]
  have hplace := placeAll_disjoint [b, c'] (anchorGrid a) [anchorOf a]
    opts.maxAttempts opts.minIntersections hdisj
  simp only [anchorGrid, anchorOf] at hplace
  rw [hplace]
  rw [if_pos (by simp)]

/-- C1: generation succeeds only with at least `min(3, wordCount)` placed
words; an input normalizing to exactly one valid word succeeds with exactly
that word; an input of three valid words sharing no letters fails. -/
theorem claim_C1_min_placement :
    (∀ (ws : List WordInput) (opts : GenOptions) (p : PuzzleGrid),
      generateCrossword ws opts = some p →
      min 3 (normalizeWords ws).length ≤ p.words.length) ∧
    (∀ (ws : List WordInput) (opts : GenOptions) (w : WordInput),
      normalizeWords ws = [w] →
      ∃ p, generateCrossword ws opts = some p ∧
        p.words.map (fun pw => pw.word) = [w.word]) ∧
    (∀ (ws : List WordInput) (opts : GenOptions) (u v x : WordInput),
      normalizeWords ws = [u, v, x] →
      noSharedLetter u.word v.word → noSharedLetter u.word x.word →
      noSharedLetter v.word x.word → generateCrossword ws opts = none) := by
  refine ⟨?_, ?_, ?_⟩
  · intro ws opts p h
    obtain ⟨fw, rest, c, heq, hmin, hcomp, hp⟩ := generateCrossword_success h
    have hlen : (normalizeWords ws).length = rest.length + 1 := by
      have hl := congrArg List.length heq
      rwa [List.length_insertionSort, List.length_cons] at hl
    subst hp
    simp only
    rw [assignClueNumbers_length, compactGrid_words_length hcomp]
    omega
  · intro ws opts w hnorm
    obtain ⟨c, _, hcw, hgen⟩ := generateCrossword_single hnorm opts
    refine ⟨_, hgen, ?_⟩
    simp only
    rw [hcw, assignClueNumbers_singleton]
    rfl
  · exact fun ws opts u v x h h1 h2 h3 => generateCrossword_disjoint3 h h1 h2 h3 opts

/-- Witness for C1 on concrete inputs: one valid word succeeds with exactly
that word, three letter-disjoint valid words fail. -/
theorem claim_C1_witness :
    (normalizeWords singleWordInput = [⟨['A', 'B', 'C'], ['x']⟩]) ∧
    (∃ p, generateCrossword singleWordInput defaultOptions = some p ∧
      p.words.map (fun pw => pw.word) = [['A', 'B', 'C']]) ∧
    (normalizeWords disjointInput =
      [⟨['B', 'C', 'D'], []⟩, ⟨['F', 'G', 'H'], []⟩, ⟨['J', 'K', 'L'], []⟩]) ∧
    generateCrossword disjointInput defaultOptions = none :=
  ⟨by decide,
   claim_C1_min_placement.2.1 singleWordInput defaultOptions ⟨['A', 'B', 'C'], ['x']⟩
     (by decide),
   by decide,
   claim_C1_min_placement.2.2 disjointInput defaultOptions ⟨['B', 'C', 'D'], []⟩
     ⟨['F', 'G', 'H'], []⟩ ⟨['J', 'K', 'L'], []⟩ (by decide) (by decide) (by decide)
     (by decide)⟩

/-- Counterexample to C5 as stated: the three failure modes (empty input, all
words rejected, insufficient placement) all return the very same value
`none`, so they are not observably distinct in the returned value. -/
theorem claim_C5_counterexample :
    generateCrossword [] defaultOptions = none ∧
    generateCrossword [⟨['a'], ['y']⟩] defaultOptions = none ∧
    generateCrossword disjointInput defaultOptions = none ∧
    generateCrossword [] defaultOptions =
      generateCrossword [⟨['a'], ['y']⟩] defaultOptions ∧
    generateCrossword [⟨['a'], ['y']⟩] defaultOptions =
      generateCrossword disjointInput defaultOptions := by
  refine ⟨rfl, by decide, by decide, by decide, by decide⟩

/-- C5 amended: every failure returns the same value `none` — empty input,
no valid word after normalization, and insufficient placement alike — so the
caller can distinguish failure from success but cannot distinguish the three
failure modes from one another in the returned value. -/
theorem claim_C5_amended (ws : List WordInput) (opts : GenOptions) (u v x : WordInput) :
    (ws = [] → generateCrossword ws opts = none) ∧
    (normalizeWords ws = [] → generateCrossword ws opts = none) ∧
    (normalizeWords ws = [u, v, x] → noSharedLetter u.word v.word →
      noSharedLetter u.word x.word → noSharedLetter v.word x.word →
      generateCrossword ws opts = none) := by
  refine ⟨?_, ?_, ?_⟩
  · intro h
    subst h
    rfl
  · intro h
    simp only [generateCrossword]
    split
    · rfl
    · rw [if_pos (by rw [h]; rfl)]
  · exact fun h h1 h2 h3 => generateCrossword_disjoint3 h h1 h2 h3 opts

/-- Witness for the amended C5: the three concrete failure modes all return
`none`. -/
theorem claim_C5_amended_witness :
    (generateCrossword [] defaultOptions = none) ∧
    (normalizeWords [⟨['a'], ['y']⟩] = []) ∧
    (generateCrossword [⟨['a'], ['y']⟩] defaultOptions = none) ∧
    (normalizeWords disjointInput =
      [⟨['B', 'C', 'D'], []⟩, ⟨['F', 'G', 'H'], []⟩, ⟨['J', 'K', 'L'], []⟩]) ∧
    (generateCrossword disjointInput defaultOptions = none) :=
  ⟨(claim_C5_amended [] defaultOptions ⟨[], []⟩ ⟨[], []⟩ ⟨[], []⟩).1 rfl,
   by decide,
   (claim_C5_amended [⟨['a'], ['y']⟩] defaultOptions ⟨[], []⟩ ⟨[], []⟩ ⟨[], []⟩).2.1
     (by decide),
   by decide,
   (claim_C5_amended disjointInput defaultOptions ⟨['B', 'C', 'D'], []⟩
     ⟨['F', 'G', 'H'], []⟩ ⟨['J', 'K', 'L'], []⟩).2.2 (by decide) (by decide)
     (by decide) (by decide)⟩

/-- C7: clue numbering groups records by exact start cell, orders the
distinct start cells by row then column, and assigns consecutive integers
from 1, one per distinct cell, every record at the same cell receiving the
same number. -/
theorem claim_C7_clue_numbering (ws : List WordPlacement) :
    (assignClueNumbers ws).length = ws.length ∧
    (∀ x ∈ assignClueNumbers ws,
      1 ≤ x.number ∧ x.number ≤ (sortedKeys ws).length) ∧
    (∀ m, 1 ≤ m → m ≤ (sortedKeys ws).length →
      ∃ x ∈ assignClueNumbers ws, x.number = m) ∧
    (∀ x ∈ assignClueNumbers ws, ∀ y ∈ assignClueNumbers ws,
      (x.number ≤ y.number ↔ keyLe (x.startRow, x.startCol) (y.startRow, y.startCol)) ∧
      (x.number = y.number ↔ (x.startRow, x.startCol) = (y.startRow, y.startCol))) := by
  refine ⟨assignClueNumbers_length ws, ?_, ?_, ?_⟩
  · intro x hx
    rw [assignClueNumbers_eq] at hx
    obtain ⟨i, hi, w, _, _, hxe⟩ := mem_numberKeys.mp hx
    subst hxe
    simp only
    omega
  · intro m h1 h2
    have hi : m - 1 < (sortedKeys ws).length := by omega
    have hk : (sortedKeys ws)[m - 1] ∈ sortedKeys ws := List.getElem_mem hi
    obtain ⟨w, hw, hkey⟩ := mem_sortedKeys.mp hk
    refine ⟨⟨1 + (m - 1), w.word, w.clue, w.word, w.row, w.col, w.direction⟩, ?_, by
      simp only
      omega⟩
    rw [assignClueNumbers_eq]
    exact mem_numberKeys.mpr ⟨m - 1, hi, w, hw, hkey, rfl⟩
  · intro x hx y hy
    rw [assignClueNumbers_eq] at hx hy
    obtain ⟨i, hi, w, _, hkw, hxe⟩ := mem_numberKeys.mp hx
    obtain ⟨j, hj, w', _, hkw', hye⟩ := mem_numberKeys.mp hy
    subst hxe
    subst hye
    simp only
    have hkx : ((w.row, w.col) : Int × Int) = (sortedKeys ws)[i] := hkw
    have hky : ((w'.row, w'.col) : Int × Int) = (sortedKeys ws)[j] := hkw'
    constructor
    · rw [hkx, hky]
      have := @sortedKeys_index_le ws _ _ hi hj
      constructor
      · intro hle
        exact this.mp (by omega)
      · intro hk
        have := this.mpr hk
        omega
    · rw [hkx, hky]
      constructor
      · intro hnum
        have hij : i = j := by omega
        subst hij
        rfl
      · intro hks
        have hij : i = j := (sortedKeys_nodup ws).getElem_inj_iff.mp hks
        omega

/-- Witness for C7 on a concrete record list with a shared start cell. -/
theorem claim_C7_witness :
    (assignClueNumbers [⟨['A', 'B'], [], 0, 0, .across, 0⟩,
        ⟨['A', 'C'], [], 0, 0, .down, 0⟩, ⟨['B', 'C'], [], 2, 1, .across, 0⟩]).length =
      ([⟨['A', 'B'], [], 0, 0, .across, 0⟩, ⟨['A', 'C'], [], 0, 0, .down, 0⟩,
        ⟨['B', 'C'], [], 2, 1, .across, 0⟩] : List WordPlacement).length ∧
    ((⟨1, ['A', 'B'], [], ['A', 'B'], 0, 0, .across⟩ : PlacedWord) ∈
      assignClueNumbers [⟨['A', 'B'], [], 0, 0, .across, 0⟩,
        ⟨['A', 'C'], [], 0, 0, .down, 0⟩, ⟨['B', 'C'], [], 2, 1, .across, 0⟩]) ∧
    ((⟨2, ['B', 'C'], [], ['B', 'C'], 2, 1, .across⟩ : PlacedWord) ∈
      assignClueNumbers [⟨['A', 'B'], [], 0, 0, .across, 0⟩,
        ⟨['A', 'C'], [], 0, 0, .down, 0⟩, ⟨['B', 'C'], [], 2, 1, .across, 0⟩]) ∧
    ((1 : Nat) ≤ 2 ↔ keyLe (0, 0) (2, 1)) := by
  refine ⟨(claim_C7_clue_numbering _).1, by decide, by decide, ?_⟩
  exact ((claim_C7_clue_numbering [⟨['A', 'B'], [], 0, 0, .across, 0⟩,
    ⟨['A', 'C'], [], 0, 0, .down, 0⟩, ⟨['B', 'C'], [], 2, 1, .across, 0⟩]).2.2.2
    ⟨1, ['A', 'B'], [], ['A', 'B'], 0, 0, .across⟩ (by decide)
    ⟨2, ['B', 'C'], [], ['B', 'C'], 2, 1, .across⟩ (by decide)).1

/-- C8: compaction is idempotent — applied to the (square) grid and placement
records it has itself produced, the Compactor returns the identical size,
grid contents and unshifted placement records. -/
theorem claim_C8_compact_idempotent (g : Grid) (ws : List WordPlacement)
    (res : CompactResult) (hsq : SquareOfSize g g.length)
    (hres : compactGrid g ws = some res) :
    compactGrid res.grid res.words = some res :=
  compactGrid_idem hsq hres

/-- Witness for C8 on a concrete grid. -/
theorem claim_C8_witness :
    SquareOfSize [[some 'A', none], [none, none]]
      ([[some 'A', none], [none, none]] : Grid).length ∧
    compactGrid [[some 'A', none], [none, none]] [⟨['A'], [], 0, 0, .across, 0⟩] =
      some ⟨1, [[some 'A']], [⟨['A'], [], 0, 0, .across, 0⟩]⟩ ∧
    compactGrid (⟨1, [[some 'A']], [⟨['A'], [], 0, 0, .across, 0⟩]⟩ : CompactResult).grid
        (⟨1, [[some 'A']], [⟨['A'], [], 0, 0, .across, 0⟩]⟩ : CompactResult).words =
      some ⟨1, [[some 'A']], [⟨['A'], [], 0, 0, .across, 0⟩]⟩ :=
  ⟨by decide, by decide,
   claim_C8_compact_idempotent [[some 'A', none], [none, none]]
     [⟨['A'], [], 0, 0, .across, 0⟩] ⟨1, [[some 'A']], [⟨['A'], [], 0, 0, .across, 0⟩]⟩
     (by decide) (by decide)⟩

/-!  C10: intersection candidates always score at least 10. -/

/-- The scoring computation of `scorePlacement` with its final long-word
penalty branch removed. -/
def scorePlacementNoPenalty (g : Grid) (w : List Char) (row col : Int)
    (dir : Direction) (pws : List WordPlacement) : Int :=
  let base : Int := (List.range w.length).foldl
    (fun s i =>
      let p := spanCell row col dir i
      if getCell g p.1 p.2 = some (charAt w i) then s + 10 else s) 0
  let avgDistance := calculateAverageDistance row col pws
  let s1 := if avgDistance < 5 then base + 5 else base
  if avgDistance < 3 then s1 + 5 else s1

theorem candidate_score_ge {g : Grid} {pws : List WordPlacement} {cur : WordInput}
    {b : WordPlacement} (hsp : ∀ pw ∈ pws, spanMatches g pw)
    (hb : b ∈ collectCandidates g pws cur) :
    10 ≤ b.score ∧
    b.score = scorePlacementNoPenalty g cur.word b.row b.col b.direction pws := by
  obtain ⟨pw, hpw, ij, hij, dir, pos, hdir, hpos, hcan, hbe⟩ := collectCandidates_spec hb
  obtain ⟨hi, hj, hchar⟩ := findIntersections_spec hij
  subst hbe
  have hspanpw := hsp pw hpw ij.2 hj
  have hcell : spanCell pos.1 pos.2 dir ij.1 =
      spanCell pw.row pw.col pw.direction ij.2 := by
    cases hpd : pw.direction
    case across =>
      simp only [hpd] at hdir hpos
      subst hdir
      simp only at hpos
      subst hpos
      simp only [hpd, spanCell, Prod.mk.injEq]
      constructor <;> ring
    case down =>
      simp only [hpd] at hdir hpos
      subst hdir
      simp only at hpos
      subst hpos
      simp only [hpd, spanCell, Prod.mk.injEq]
      constructor <;> ring
  have hmatch : getCell g (spanCell pos.1 pos.2 dir ij.1).1
      (spanCell pos.1 pos.2 dir ij.1).2 = some (charAt cur.word ij.1) := by
    rw [hcell, hspanpw, hchar]
  have h2 : 10 ≤ scorePlacementNoPenalty g cur.word pos.1 pos.2 dir pws := by
    simp only [scorePlacementNoPenalty]
    rw [foldl_add_ten]
    have hcnt : 0 < (List.range cur.word.length).countP fun i =>
        decide (getCell g (spanCell pos.1 pos.2 dir i).1 (spanCell pos.1 pos.2 dir i).2
          = some (charAt cur.word i)) := by
      rw [List.countP_pos]
      exact ⟨ij.1, List.mem_range.mpr hi, by simpa using hmatch⟩
    split_ifs <;> omega
  have heqv : scorePlacement g cur.word pos.1 pos.2 dir pws =
      scorePlacementNoPenalty g cur.word pos.1 pos.2 dir pws := by
    have hshape : scorePlacement g cur.word pos.1 pos.2 dir pws =
        if 6 < cur.word.length ∧
            scorePlacementNoPenalty g cur.word pos.1 pos.2 dir pws < 10
        then scorePlacementNoPenalty g cur.word pos.1 pos.2 dir pws - 5
        else scorePlacementNoPenalty g cur.word pos.1 pos.2 dir pws := rfl
    rw [hshape, if_neg]
    intro hcon
    omega
  constructor
  · simp only
    rw [heqv]
    exact h2
  · simp only
    rw [heqv]

/-- C10: every candidate generated from a matching-letter intersection pair
that passes `canPlaceWord` scores at least 10, so the long-word penalty
branch of `scorePlacement` is never taken for such candidates; and with the
default `minIntersections = 1`, a non-empty candidate pool is accepted on the
first iteration of the retry loop. -/
theorem claim_C10_candidate_scores :
    (∀ (g : Grid) (pws : List WordPlacement) (cur : WordInput) (b : WordPlacement),
      (∀ pw ∈ pws, spanMatches g pw) → b ∈ collectCandidates g pws cur →
      10 ≤ b.score ∧
      b.score = scorePlacementNoPenalty g cur.word b.row b.col b.direction pws) ∧
    (∀ (g : Grid) (pws : List WordPlacement) (cur : WordInput),
      (∀ pw ∈ pws, spanMatches g pw) → collectCandidates g pws cur ≠ [] →
      ∃ b ∈ collectCandidates g pws cur, (1 : Int) ≤ b.score ∧
        ∀ fuel : Nat, placementLoop g pws cur 1 (fuel + 1) = some b) := by
  constructor
  · exact fun g pws cur b hsp hb => candidate_score_ge hsp hb
  · intro g pws cur hsp hne
    have hsel : ∃ best, selectBest (collectCandidates g pws cur) = some best := by
      unfold selectBest
      cases hs : (collectCandidates g pws cur).insertionSort scoreGe with
      | nil =>
        exfalso
        apply hne
        have hl := congrArg List.length hs
        rw [List.length_insertionSort] at hl
        exact List.length_eq_zero.mp hl
      | cons a l => exact ⟨a, rfl⟩
    obtain ⟨best, hbest⟩ := hsel
    have hm := selectBest_mem hbest
    obtain ⟨h10, _⟩ := candidate_score_ge hsp hm
    refine ⟨best, hm, by omega, ?_⟩
    intro fuel
    unfold placementLoop
    rw [hbest]
    show (if 1 ≤ best.score then some best else placementLoop g pws cur 1 fuel) = some best
    rw [if_pos (by omega)]

/-- Witness for C10 on a concrete grid with one placed word and one candidate
word sharing a letter with it. -/
theorem claim_C10_witness :
    (∀ pw ∈ ([⟨['A', 'B'], [], 2, 1, .across, 0⟩] : List WordPlacement),
      spanMatches
        [[none, none, none, none, none], [none, none, none, none, none],
         [none, some 'A', some 'B', none, none], [none, none, none, none, none],
         [none, none, none, none, none]] pw) ∧
    collectCandidates
      [[none, none, none, none, none], [none, none, none, none, none],
       [none, some 'A', some 'B', none, none], [none, none, none, none, none],
       [none, none, none, none, none]]
      [⟨['A', 'B'], [], 2, 1, .across, 0⟩] ⟨['B', 'C'], []⟩ ≠ [] ∧
    (∃ b ∈ collectCandidates
      [[none, none, none, none, none], [none, none, none, none, none],
       [none, some 'A', some 'B', none, none], [none, none, none, none, none],
       [none, none, none, none, none]]
      [⟨['A', 'B'], [], 2, 1, .across, 0⟩] ⟨['B', 'C'], []⟩, (1 : Int) ≤ b.score ∧
        ∀ fuel : Nat, placementLoop
          [[none, none, none, none, none], [none, none, none, none, none],
           [none, some 'A', some 'B', none, none], [none, none, none, none, none],
           [none, none, none, none, none]]
          [⟨['A', 'B'], [], 2, 1, .across, 0⟩] ⟨['B', 'C'], []⟩ 1 (fuel + 1) = some b) := by
  refine ⟨?_, ?_, ?_⟩
  · intro pw hpw
    have hp : pw = ⟨['A', 'B'], [], 2, 1, .across, 0⟩ := by simpa using hpw
    subst hp
    intro i hi
    simp only [List.length_cons, List.length_nil] at hi
    interval_cases i <;> decide
  · decide
  · refine claim_C10_candidate_scores.2 _ _ _ ?_ (by decide)
    intro pw hpw
    have hp : pw = ⟨['A', 'B'], [], 2, 1, .across, 0⟩ := by simpa using hpw
    subst hp
    intro i hi
    simp only [List.length_cons, List.length_nil] at hi
    interval_cases i <;> decide

end Crossword
